import Mathlib

/-!
Verification development for the storage-engine core of a BusTub-derived
embedded database: LRU-K replacer, extendible hash table, buffer pool
manager and B+Tree page primitives.

Each data structure below is a shallow embedding of the corresponding C++
translation unit:

* `BusTub.LRUK`   embeds `src/buffer/lru_k_replacer.cpp`
* `BusTub.EHT`    embeds `src/container/hash/extendible_hash_table.cpp`
* `BusTub.Pool`   embeds `src/buffer/buffer_pool_manager_instance.cpp`
* `BusTub.BPTree` embeds `src/storage/page/b_plus_tree_internal_page.cpp`,
  `src/storage/page/b_plus_tree_leaf_page.cpp` and the leaf-split routine
  of `src/storage/index/b_plus_tree.cpp`

Machine integers are modelled as `Nat`/`Int` (the programs never reach
overflow ranges in the behaviours studied here), byte buffers as abstract
values, and fallible or undefined-behaviour paths return `Option`, with
`none` marking an abort: a failed `BUSTUB_ENSURE`/`BUSTUB_ASSERT` bounds
or state assertion, an out-of-bounds `std::vector` access, or the use of
a dangling iterator.  `BUSTUB_ASSERT` is modelled with assertions active
(a debug build, the configuration the project's test suite runs under):
the asserted expression is evaluated and a false result aborts.
-/

namespace BusTub

/-! ## B+Tree internal page (`b_plus_tree_internal_page.cpp`) -/

namespace BPTree

/-- Embedding of `BPlusTreeInternalPage::KeyCmp`: the comparator walks the
raw bytes of the key from the most significant position down, which is
exactly unsigned integer comparison of the stored key; keys are therefore
modelled as `Nat` and the comparator returns `-1`, `0` or `1`. -/
def keyCmp (lhs rhs : Nat) : Int :=
  if lhs < rhs then -1 else if rhs < lhs then 1 else 0

/-- An internal page: `arr` is the physical `(key, child page id)` array
(slot 0's key is unused), `size` is the page's current size counter.
Only the first `size` slots are meaningful. -/
structure InternalPage where
  arr : List (Nat × Int)
  size : Nat
deriving DecidableEq, Repr

/-- Embedding of `BPlusTreeInternalPage::KeyAt`: a raw array read with no
bounds assertion (the internal page's accessor has none in the source);
reads beyond the physical array give an arbitrary fixed value, and every
use below stays inside the first `size` slots. -/
def InternalPage.keyAt (p : InternalPage) (i : Nat) : Nat :=
  (p.arr.getD i (0, 0)).1

/-- Embedding of `BPlusTreeInternalPage::ValueAt`. -/
def InternalPage.valueAt (p : InternalPage) (i : Nat) : Int :=
  (p.arr.getD i (0, 0)).2

/-- Embedding of `BPlusTreeInternalPage::IsEmpty` (`GetSize() == 1`). -/
def InternalPage.isEmptyPage (p : InternalPage) : Bool :=
  p.size = 1

/-- The scan loop of `BPlusTreeInternalPage::Find`: iterate `i` from 1
while `i < size`; `steps` counts the remaining iterations (`size - i`),
so the loop guard `i < GetSize()` is exactly `steps > 0`.  On
`KeyCmp(key, KeyAt(i)) <= 0` the loop returns `i - 1`; falling off the
loop returns `GetSize() - 1`. -/
def iFindGo (p : InternalPage) (k : Nat) : Nat → Nat → Int
  | 0, _ => (p.size : Int) - 1
  | steps + 1, i =>
    if keyCmp k (p.keyAt i) ≤ 0 then (i : Int) - 1 else iFindGo p k steps (i + 1)

/-- Embedding of `BPlusTreeInternalPage::Find`: `-1` on an empty page
(`size == 1`), otherwise the scan loop starting at index 1. -/
def InternalPage.find (p : InternalPage) (k : Nat) : Int :=
  if p.size = 1 then -1 else iFindGo p k (p.size - 1) 1

/-- Modelled from the spec's words for claim comparison: the greatest
index `i ≥ 1` with `key[i] ≤ k`, defaulting to `0` when no such index
exists.  This is the function the specification ascribes to the internal
page's `find`. -/
def specFindLe (p : InternalPage) (k : Nat) : Int :=
  ((List.range p.size).filter fun i => decide (1 ≤ i) && decide (p.keyAt i ≤ k)).foldl
    (fun a i => max a (i : Int)) 0

/-- Decidable strict sortedness of the meaningful keys (slots `1` to
`size - 1`); slot 0's key is ignored, matching invariant (I5). -/
def InternalPage.sortedKeys (p : InternalPage) : Bool :=
  (List.range p.size).all fun j =>
    (List.range j).all fun i => !decide (1 ≤ i) || decide (p.keyAt i < p.keyAt j)

theorem sortedKeys_lt {p : InternalPage} (hs : p.sortedKeys = true) :
    ∀ i j : Nat, 1 ≤ i → i < j → j < p.size → p.keyAt i < p.keyAt j := by
  intro i j hi hij hj
  simp only [InternalPage.sortedKeys, List.all_eq_true, List.mem_range] at hs
  have := hs j hj i hij
  simpa [hi] using this

theorem keyCmp_le_zero_iff (k a : Nat) : keyCmp k a ≤ 0 ↔ k ≤ a := by
  unfold keyCmp
  split
  · omega
  · split <;> omega

/-- Characterization of the `Find` scan loop: entering the loop at index
`i` with `steps` iterations left and all earlier meaningful keys below
`k`, the returned index is the greatest `j ≥ 1` with `key[j] < k`
(defaulting to `i - 1`). -/
theorem iFindGo_spec (p : InternalPage) (k : Nat)
    (hsort : ∀ i j : Nat, 1 ≤ i → i < j → j < p.size → p.keyAt i < p.keyAt j) :
    ∀ steps i : Nat, steps + i = p.size → 1 ≤ i →
      (∀ j : Nat, 1 ≤ j → j < i → p.keyAt j < k) →
      (i : Int) - 1 ≤ iFindGo p k steps i ∧
      iFindGo p k steps i < (p.size : Int) ∧
      (∀ j : Nat, 1 ≤ j → j < p.size → p.keyAt j < k → (j : Int) ≤ iFindGo p k steps i) ∧
      (1 ≤ iFindGo p k steps i → p.keyAt (iFindGo p k steps i).toNat < k) := by
  intro steps
  induction steps with
  | zero =>
    intro i htot hi hinv
    simp only [iFindGo]
    refine ⟨by omega, by omega, ?_, ?_⟩
    · intro j hj1 hjs _
      omega
    · intro hr
      have h1 : 1 ≤ p.size - 1 := by omega
      have h2 : p.size - 1 < i := by omega
      have := hinv (p.size - 1) h1 h2
      have hcast : ((p.size : Int) - 1).toNat = p.size - 1 := by omega
      rwa [hcast]
  | succ st ih =>
    intro i htot hi hinv
    simp only [iFindGo]
    by_cases hc : keyCmp k (p.keyAt i) ≤ 0
    · have hki : k ≤ p.keyAt i := (keyCmp_le_zero_iff k (p.keyAt i)).mp hc
      simp only [hc, if_pos]
      refine ⟨le_refl _, by omega, ?_, ?_⟩
      · intro j hj1 hjs hjk
        rcases Nat.lt_trichotomy j i with hlt | heq | hgt
        · omega
        · subst heq; omega
        · exact absurd hjk (by
            have := hsort i j hi hgt hjs
            omega)
      · intro hr
        have hi2 : 2 ≤ i := by omega
        have hcast : ((i : Int) - 1).toNat = i - 1 := by omega
        rw [hcast]
        exact hinv (i - 1) (by omega) (by omega)
    · have hki : p.keyAt i < k := by
        by_contra hcon
        exact hc ((keyCmp_le_zero_iff k (p.keyAt i)).mpr (by omega))
      simp only [hc, if_neg, if_false]
      have hinv' : ∀ j : Nat, 1 ≤ j → j < i + 1 → p.keyAt j < k := by
        intro j hj1 hj2
        rcases Nat.lt_or_ge j i with h | h
        · exact hinv j hj1 h
        · have : j = i := by omega
          subst this; exact hki
      have := ih (i + 1) (by omega) (by omega) hinv'
      refine ⟨by omega, this.2.1, ?_, this.2.2.2⟩
      intro j hj1 hjs hjk
      exact this.2.2.1 j hj1 hjs hjk

/-- Claim C3 amended: for an internal page with strictly increasing
meaningful keys, `find(k)` returns the greatest index `i ≥ 1` with
`key[i] < k` (strict comparison), defaulting to `0`; when the page holds
no keys (`size == 1`) it returns `-1`.  In particular when `k` equals
`key[i]` the result is `i - 1`, not `i`. -/
theorem internal_find_greatest_lt (p : InternalPage) (k : Nat)
    (hs : p.sortedKeys = true) :
    (p.size = 1 → p.find k = -1) ∧
    (2 ≤ p.size →
      0 ≤ p.find k ∧ p.find k < (p.size : Int) ∧
      (∀ i : Nat, 1 ≤ i → i < p.size → p.keyAt i < k → (i : Int) ≤ p.find k) ∧
      (1 ≤ p.find k → p.keyAt (p.find k).toNat < k)) := by
  constructor
  · intro h1
    simp [InternalPage.find, h1]
  · intro h2
    have hne : ¬ p.size = 1 := by omega
    have hloop := iFindGo_spec p k (sortedKeys_lt hs) (p.size - 1) 1 (by omega) (by omega)
      (by intro j hj1 hj2; omega)
    simp only [InternalPage.find, hne, if_neg, if_false]
    exact ⟨by omega, hloop.2.1, hloop.2.2.1, hloop.2.2.2⟩

/-- The internal page used throughout the claim-C3 theorems: keys
`[_, 10, 20]` (slot 0 unused) with children `100, 101, 102`. -/
def c3Page : InternalPage := ⟨[(99, 100), (10, 101), (20, 102)], 3⟩

/-- Claim C3 counterexample: on a sorted internal page with keys
`key[1] = 10 < key[2] = 20` and search key `k = 20 = key[2]`, the
source's `Find` returns `1`, while the claim's function
`max (set i with key i le k)` returns `2`, so the claim that
`find(k) = max (set i with key i le k)` and in particular `find(key[i]) = i`
is false on this page. -/
theorem claim_c3_counterexample :
    c3Page.sortedKeys = true ∧ c3Page.keyAt 2 = 20 ∧
    c3Page.find 20 = 1 ∧ specFindLe c3Page 20 = 2 ∧
    c3Page.find 20 ≠ specFindLe c3Page 20 := by
  refine ⟨rfl, rfl, rfl, rfl, ?_⟩
  decide

/-- Witness for the amended claim-C3 theorem at the concrete page
`c3Page` with search key 15: `find` returns 1, the greatest index whose
key (10) is below 15. -/
theorem internal_find_greatest_lt_witness :
    c3Page.sortedKeys = true ∧
    ((c3Page.size = 1 → c3Page.find 15 = -1) ∧
      (2 ≤ c3Page.size →
        0 ≤ c3Page.find 15 ∧ c3Page.find 15 < (c3Page.size : Int) ∧
        (∀ i : Nat, 1 ≤ i → i < c3Page.size → c3Page.keyAt i < 15 →
          (i : Int) ≤ c3Page.find 15) ∧
        (1 ≤ c3Page.find 15 → c3Page.keyAt (c3Page.find 15).toNat < 15))) :=
  ⟨rfl, internal_find_greatest_lt c3Page 15 rfl⟩

/-! ## B+Tree leaf page (`b_plus_tree_leaf_page.cpp`) and the leaf-split
routine `BPlusTree::InsertLeafOverflow` (`b_plus_tree.cpp`). -/

/-- A leaf page: `arr` is the physical `(key, value)` array (entries past
`size` are stale bytes), `size`/`maxSize` the header counters,
`nextPageId` the sibling link.  `Init` in the source sets type, size,
max size, parent and page id but leaves `next_page_id_` untouched. -/
structure LeafPage where
  arr : List (Nat × Nat)
  size : Nat
  maxSize : Nat
  nextPageId : Int
  parentPageId : Int
deriving DecidableEq, Repr

/-- Embedding of `BPlusTreeLeafPage::KeyAt`: guarded by
`BUSTUB_ENSURE(index >= 0 && index < size, ...)`; a failed guard aborts
(`none`). -/
def LeafPage.keyAt (p : LeafPage) (i : Nat) : Option Nat :=
  if i < p.size then (p.arr[i]?).map Prod.fst else none

/-- Read through `BPlusTreeLeafPage::operator[]`, which carries the same
`BUSTUB_ENSURE(0 <= index && index < size_, ...)` bound. -/
def LeafPage.entryAt (p : LeafPage) (i : Nat) : Option (Nat × Nat) :=
  if i < p.size then p.arr[i]? else none

/-- Write through `BPlusTreeLeafPage::operator[]` (same bound). -/
def LeafPage.setEntry (p : LeafPage) (i : Nat) (e : Nat × Nat) : Option LeafPage :=
  if i < p.size then some { p with arr := p.arr.set i e } else none

/-- First loop of `InsertLeafOverflow`: for `i` below `max_size / 2`,
skip entries whose key is below `temp`'s key, otherwise
`std::swap((*page)[i], temp)`.  `steps` counts remaining iterations. -/
def leafLoop1 : Nat → Nat → LeafPage → (Nat × Nat) → Option (LeafPage × (Nat × Nat))
  | 0, _, pg, t => some (pg, t)
  | st + 1, i, pg, t => do
    let kA ← pg.keyAt i
    if kA < t.1 then leafLoop1 st (i + 1) pg t
    else do
      let old ← pg.entryAt i
      let pg' ← pg.setEntry i t
      leafLoop1 st (i + 1) pg' old

/-- Second loop of `InsertLeafOverflow`: `i` continues from
`max_size / 2` up to the new leaf's max size, still reading
`page->KeyAt(i)` of the old page (whose size was just truncated) and
swapping into `(*new_leaf)[i]`. -/
def leafLoop2 : Nat → Nat → LeafPage → LeafPage → (Nat × Nat) →
    Option (LeafPage × (Nat × Nat))
  | 0, _, _, nl, t => some (nl, t)
  | st + 1, i, pg, nl, t => do
    let kA ← pg.keyAt i
    if kA < t.1 then leafLoop2 st (i + 1) pg nl t
    else do
      let old ← nl.entryAt i
      let nl' ← nl.setEntry i t
      leafLoop2 st (i + 1) pg nl' old

/-- Embedding of `BPlusTree::InsertLeafOverflow` on a full leaf `page`
with new entry `(k, v)`.  `dmax` is the default `max_size` the header
supplies to `Init` for the freshly allocated leaf (the call site passes
no explicit max size).  The new leaf's frame was zeroed by `NewPage`, so
its physical array and its untouched `next_page_id_` read as zeros.
Returns the truncated old leaf, the new leaf and the separator key
(`*new_key`), or `none` when a `BUSTUB_ENSURE` bound aborts. -/
def insertLeafOverflow (dmax : Nat) (page : LeafPage) (k v : Nat) :
    Option (LeafPage × LeafPage × Nat) := do
  let newLeaf : LeafPage :=
    ⟨List.replicate (dmax + 1) (0, 0), 0, dmax, 0, page.parentPageId⟩
  let (pg1, t1) ← leafLoop1 (page.maxSize / 2) 0 page (k, v)
  let pg2 := { pg1 with size := page.maxSize / 2 }
  let sep ← pg2.keyAt (page.maxSize / 2 - 1)
  let (nl1, _) ← leafLoop2 (dmax + 1 - page.maxSize / 2) (page.maxSize / 2) pg2 newLeaf t1
  let nl2 := { nl1 with size := dmax + 1 - page.maxSize / 2 }
  some (pg2, nl2, sep)

/-- The prefix of `InsertLeafOverflow` up to the computation of
`*new_key = page->KeyAt(page->GetMaxSize() / 2 - 1)` (line 578): the
separator the routine reports to the caller. -/
def leafSplitSep (page : LeafPage) (k v : Nat) : Option Nat := do
  let (pg1, _) ← leafLoop1 (page.maxSize / 2) 0 page (k, v)
  let pg2 := { pg1 with size := page.maxSize / 2 }
  pg2.keyAt (page.maxSize / 2 - 1)

/-- A full leaf (`size = max_size = 4`) with keys 10, 20, 30, 40; the
last physical slot is stale. Sibling link and parent are `INVALID`. -/
def c2Leaf : LeafPage := ⟨[(10, 1), (20, 2), (30, 3), (40, 4), (0, 0)], 4, 4, -1, -1⟩

/-- Claim C2 failing input: splitting the full leaf `[10,20,30,40]`
(`max_size = 4`) on inserting key 25.  The claimed behaviour: old leaf
keeps the lower half, new leaf gets `[30,40]`, sibling links are
rethreaded, and the separator is 30 (the new leaf's first key).  The
code instead (a) computes the separator as the *old* leaf's last
remaining key, 20, and (b) aborts on its own `BUSTUB_ENSURE` bound when
the second loop reads `page->KeyAt(2)` after the old leaf's size was
truncated to 2 — so no split completes and `next_page_id` is never
touched (the routine contains no `SetNextPageId` call at all). -/
theorem claim_c2_code_bug :
    insertLeafOverflow 4 c2Leaf 25 7 = none ∧
    leafSplitSep c2Leaf 25 7 = some 20 ∧ (20 : Nat) ≠ 30 := by
  refine ⟨rfl, rfl, ?_⟩
  decide

end BPTree

/-! ## Association-list helpers shared by the models: the semantics of a
uniquely-keyed C++ map (`std::map` / directory bookkeeping). -/

namespace Util

variable {K V : Type} [DecidableEq K]

/-- Lookup of the first pair with the given key. -/
def assocFind (m : List (K × V)) (k : K) : Option V :=
  match m with
  | [] => none
  | (k', v) :: t => if k' = k then some v else assocFind t k

/-- `m[k] = v`: assign the first pair with key `k`, or append. -/
def assocSet (m : List (K × V)) (k : K) (v : V) : List (K × V) :=
  match m with
  | [] => [(k, v)]
  | (k', v') :: t => if k' = k then (k, v) :: t else (k', v') :: assocSet t k v

/-- `m.erase(k)`: drop the first pair with key `k`. -/
def assocErase (m : List (K × V)) (k : K) : List (K × V) :=
  match m with
  | [] => []
  | (k', v') :: t => if k' = k then t else (k', v') :: assocErase t k

theorem assocFind_set_self (m : List (K × V)) (k : K) (v : V) :
    assocFind (assocSet m k v) k = some v := by
  induction m with
  | nil => simp [assocSet, assocFind]
  | cons p t ih =>
    by_cases h : p.1 = k <;> simp [assocSet, assocFind, h, ih]

theorem assocFind_set_ne (m : List (K × V)) (k k' : K) (v : V) (h : k ≠ k') :
    assocFind (assocSet m k v) k' = assocFind m k' := by
  induction m with
  | nil => simp [assocSet, assocFind, h]
  | cons p t ih =>
    by_cases hp : p.1 = k <;> simp [assocSet, assocFind, hp, h, ih]

theorem assocFind_erase_ne (m : List (K × V)) (k k' : K) (h : k ≠ k') :
    assocFind (assocErase m k) k' = assocFind m k' := by
  induction m with
  | nil => simp [assocErase]
  | cons p t ih =>
    by_cases hp : p.1 = k
    · have : ¬ p.1 = k' := by rw [hp]; exact h
      simp [assocErase, assocFind, hp, this, h]
    · simp [assocErase, assocFind, hp, ih]

theorem assocFind_none_of_not_mem (m : List (K × V)) (k : K)
    (h : ∀ p ∈ m, p.1 ≠ k) : assocFind m k = none := by
  induction m with
  | nil => rfl
  | cons p t ih =>
    have := h p (by simp)
    simp [assocFind, this]
    exact ih fun q hq => h q (by simp [hq])

theorem mem_assocSet (m : List (K × V)) (k : K) (v : V) (p : K × V)
    (hp : p ∈ assocSet m k v) : p = (k, v) ∨ p ∈ m := by
  induction m with
  | nil => simp_all [assocSet]
  | cons q t ih =>
    by_cases hq : q.1 = k
    · simp only [assocSet, hq, if_pos, List.mem_cons] at hp
      rcases hp with h | h
      · exact Or.inl h
      · exact Or.inr (List.mem_cons_of_mem q h)
    · simp only [assocSet, hq, if_neg, if_false, List.mem_cons] at hp
      rcases hp with h | h
      · exact Or.inr (by simp [h])
      · rcases ih h with h' | h'
        · exact Or.inl h'
        · exact Or.inr (List.mem_cons_of_mem q h')

theorem mem_assocErase (m : List (K × V)) (k : K) (p : K × V)
    (hp : p ∈ assocErase m k) : p ∈ m := by
  induction m with
  | nil => simp_all [assocErase]
  | cons q t ih =>
    by_cases hq : q.1 = k
    · simp only [assocErase, hq, if_pos] at hp
      exact List.mem_cons_of_mem q hp
    · simp only [assocErase, hq, if_neg, if_false, List.mem_cons] at hp
      rcases hp with h | h
      · exact by simp [h]
      · exact List.mem_cons_of_mem q (ih h)

theorem assocFind_erase_none (m : List (K × V)) (k f : K)
    (h : assocFind m f = none) : assocFind (assocErase m k) f = none := by
  induction m with
  | nil => rfl
  | cons p t ih =>
    simp only [assocFind] at h
    by_cases hp : p.1 = f
    · simp [hp] at h
    · simp only [hp, if_neg, if_false] at h
      by_cases hk : p.1 = k
      · simpa [assocErase, hk] using h
      · simp [assocErase, hk, assocFind, hp, ih h]

theorem assocFind_mem (m : List (K × V)) (k : K) (v : V)
    (h : assocFind m k = some v) : (k, v) ∈ m := by
  induction m with
  | nil => simp [assocFind] at h
  | cons q t ih =>
    by_cases hq : q.1 = k
    · simp only [assocFind, hq, if_pos, Option.some.injEq] at h
      subst h
      have : q = (k, q.2) := by
        cases q; simp_all
      simp [← hq]
    · simp only [assocFind, hq, if_neg, if_false] at h
      simp [ih h]

end Util

/-! ## LRU-K replacer (`lru_k_replacer.cpp`)

The replacer keeps three `std::set<frame_info_t>` collections ordered by
`(timestamp_, frame_id_)` — modelled as sorted lists — plus
`map_ : frame_id → iterator`.  The map stores iterators into the sets;
we model a map entry as the `frame_info_t` value the iterator points at,
and an entry that is in the map but in none of the three collections is
a dangling iterator: dereferencing it, or erasing through it, is
undefined behaviour and aborts the model (`none`).  `curr_size_` is a
separate counter (`size_t`). -/

namespace LRUK

open Util

/-- `frame_info_t`: last-access timestamp, frame id, hit counter and the
two classification flags `evitable_` / `buffered_`.  A freshly emplaced
entry (`emplace(++timestamp_, frame_id)`) has one hit, is evictable and
not buffered. -/
structure Entry where
  timestamp : Nat
  frameId : Nat
  timesHit : Nat
  evictableFlag : Bool
  bufferedFlag : Bool
deriving DecidableEq, Repr

/-- The strict `(timestamp, frame_id)` order of the sets. -/
def Entry.lexLt (a b : Entry) : Bool :=
  a.timestamp < b.timestamp || (a.timestamp == b.timestamp && a.frameId < b.frameId)

/-- Ordered insertion into a set: place the entry before the first
element it precedes. -/
def insertSorted (e : Entry) : List Entry → List Entry
  | [] => [e]
  | h :: t => if e.lexLt h then e :: h :: t else h :: insertSorted e t

/-- Erase the set node an iterator designates.  The iterator must point
into this very set: erasing a node that is not present is undefined
behaviour (`none`). -/
def eraseChecked (e : Entry) (l : List Entry) : Option (List Entry) :=
  if e ∈ l then some (l.erase e) else none

/-- `LRUKReplacer` state: `k_`, `replacer_size_`, the monotone
`timestamp_` counter, `curr_size_`, the three ordered collections and
`map_`. -/
structure RState where
  k : Nat
  capacity : Nat
  timestamp : Nat
  currSize : Nat
  history : List Entry
  buffered : List Entry
  nonEvict : List Entry
  map : List (Nat × Entry)
deriving DecidableEq, Repr

/-- The constructor `LRUKReplacer(num_frames, k)`. -/
def initR (cap k : Nat) : RState := ⟨k, cap, 0, 0, [], [], [], []⟩

/-- A map entry is live when its node still exists in one of the three
collections. -/
def Entry.live (e : Entry) (s : RState) : Bool :=
  decide (e ∈ s.history) || decide (e ∈ s.buffered) || decide (e ∈ s.nonEvict)

/-- Embedding of `LRUKReplacer::Evict`: pop the head of `history_list_`,
else of `buffered_list_`, erasing the frame from `map_` and decrementing
`curr_size_`; returns `none` (C++ `false`) when both are empty. -/
def evict (s : RState) : Option Nat × RState :=
  match s.history with
  | e :: t =>
    (some e.frameId,
      { s with history := t, map := assocErase s.map e.frameId, currSize := s.currSize - 1 })
  | [] =>
    match s.buffered with
    | e :: t =>
      (some e.frameId,
        { s with buffered := t, map := assocErase s.map e.frameId, currSize := s.currSize - 1 })
    | [] => (none, s)

/-- Embedding of `LRUKReplacer::Size` (`curr_size_`). -/
def sizeR (s : RState) : Nat := s.currSize

/-- Embedding of `LRUKReplacer::RecordAccess`.  `RecordAccess` takes the
non-recursive `common_latch_` at entry; the untracked-at-capacity branch
then runs `BUSTUB_ASSERT(Evict(&id), true)`, and `Evict` re-locks the
same `common_latch_` — with assertions active (the build modelled here)
the call self-locks a held `std::mutex`, which is undefined behaviour:
the branch is `none`.  (Under `NDEBUG` the assert's expression would not
be evaluated at all, so no build evicts a victim on this path.)  An
existing frame's node is erased from the collection its flags designate,
its copy gets one more hit and a fresh timestamp, and it is re-emplaced
into `none_evictable_` / `buffered_list_` / `history_list_` according to
the flags and `times_hit_ >= k_`. -/
def recordAccess (f : Nat) (s : RState) : Option RState :=
  match assocFind s.map f with
  | none =>
    if s.currSize = s.capacity then none
    else
      let ts := s.timestamp + 1
      let e : Entry := ⟨ts, f, 1, true, false⟩
      some { s with timestamp := ts, history := insertSorted e s.history,
                    map := assocSet s.map f e, currSize := s.currSize + 1 }
  | some e =>
    if e.live s then do
      let s1 ←
        if !e.evictableFlag then do
          let l ← eraseChecked e s.nonEvict
          pure { s with nonEvict := l }
        else if e.bufferedFlag then do
          let l ← eraseChecked e s.buffered
          pure { s with buffered := l }
        else do
          let l ← eraseChecked e s.history
          pure { s with history := l }
      let ts := s1.timestamp + 1
      let hits := e.timesHit + 1
      if !e.evictableFlag then
        let e' : Entry := ⟨ts, e.frameId, hits, e.evictableFlag, e.bufferedFlag⟩
        some { s1 with timestamp := ts, nonEvict := insertSorted e' s1.nonEvict,
                       map := assocSet s1.map f e' }
      else if s.k ≤ hits then
        let e' : Entry := ⟨ts, e.frameId, hits, e.evictableFlag, true⟩
        some { s1 with timestamp := ts, buffered := insertSorted e' s1.buffered,
                       map := assocSet s1.map f e' }
      else
        let e' : Entry := ⟨ts, e.frameId, hits, e.evictableFlag, e.bufferedFlag⟩
        some { s1 with timestamp := ts, history := insertSorted e' s1.history,
                       map := assocSet s1.map f e' }
    else none

/-- Embedding of `LRUKReplacer::SetEvictable`.  Note two source quirks
kept faithfully: the branch making a frame evictable re-emplaces the
entry *without* updating its `evitable_`/`buffered_` flags, and its
`Size() == replacer_size_` path runs `BUSTUB_ASSERT(Evict(&id), true)`
while `SetEvictable` already holds the non-recursive `common_latch_`
that `Evict` re-locks — the same self-lock undefined behaviour as in
`RecordAccess`, modelled `none`. -/
def setEvictable (f : Nat) (flag : Bool) (s : RState) : Option RState :=
  match assocFind s.map f with
  | none => some s
  | some e =>
    if e.live s then
      if !e.evictableFlag && flag then do
        let l ← eraseChecked e s.nonEvict
        let s1 := { s with nonEvict := l }
        let s2 ←
          if s1.currSize = s1.capacity then none
          else some s1
        if s.k ≤ e.timesHit then
          some { s2 with buffered := insertSorted e s2.buffered,
                         map := assocSet s2.map f e, currSize := s2.currSize + 1 }
        else
          some { s2 with history := insertSorted e s2.history,
                         map := assocSet s2.map f e, currSize := s2.currSize + 1 }
      else if e.bufferedFlag && !flag then do
        let e' : Entry := ⟨e.timestamp, e.frameId, e.timesHit, false, false⟩
        let l ← eraseChecked e s.buffered
        some { s with buffered := l, nonEvict := insertSorted e' s.nonEvict,
                      map := assocSet s.map f e', currSize := s.currSize - 1 }
      else if e.evictableFlag && !flag then do
        let e' : Entry := ⟨e.timestamp, e.frameId, e.timesHit, false, e.bufferedFlag⟩
        let l ← eraseChecked e s.history
        some { s with history := l, nonEvict := insertSorted e' s.nonEvict,
                      map := assocSet s.map f e', currSize := s.currSize - 1 }
      else some s
    else none

/-- Embedding of `LRUKReplacer::Remove`: `BUSTUB_ASSERT` requires the
entry evictable (aborting otherwise, and aborting on a dangling
iterator), then the node is erased from `buffered_list_` or
`history_list_` — but `map_` keeps the now-dangling iterator and
`curr_size_` is *not* decremented (both faithfully kept from the
source). -/
def removeR (f : Nat) (s : RState) : Option RState :=
  match assocFind s.map f with
  | none => some s
  | some e =>
    if e.live s then
      if e.evictableFlag then
        if e.bufferedFlag then do
          let l ← eraseChecked e s.buffered
          some { s with buffered := l }
        else do
          let l ← eraseChecked e s.history
          some { s with history := l }
      else none
    else none

/-- Replacer operations, for quantifying over call sequences. -/
inductive ROp where
  | ra (f : Nat)
  | setEv (f : Nat) (b : Bool)
  | rm (f : Nat)
  | ev
deriving DecidableEq, Repr

/-- Ghost instrumentation: a spec-side record of the `timestamp_` value
stamped at each frame's most recent (effective) `RecordAccess`.  The
replacer stamps exactly when `timestamp_` advances. -/
abbrev Ghost := List (Nat × Nat)

/-- One step of a replacer run, carrying the ghost last-stamp map. -/
def stepRG : RState × Ghost → ROp → Option (RState × Ghost)
  | (s, g), .ra f =>
    (recordAccess f s).map fun s' =>
      (s', if s'.timestamp ≠ s.timestamp then assocSet g f s'.timestamp else g)
  | (s, g), .setEv f b => (setEvictable f b s).map (·, g)
  | (s, g), .rm f => (removeR f s).map (·, g)
  | (s, g), .ev => some ((evict s).2, g)

/-- Run a sequence of replacer operations from the freshly constructed
replacer. -/
def runRG (cap k : Nat) (ops : List ROp) : Option (RState × Ghost) :=
  ops.foldlM stepRG (initR cap k, [])

/-! ### Concrete replacer traces (claims C5 and C6) -/

/-- Claim C6 failing trace: capacity 2, K = 2; `record_access(1)` makes
frame 1 tracked and evictable with `size() = 1`; `Remove(1)` then erases
the node from `history_list_` but the source neither decrements
`curr_size_` nor erases the `map_` entry: `size()` stays 1 (the claim
requires 0), the dangling map entry remains, and `evict()` finds
nothing. -/
theorem claim_c6_code_bug :
    ((recordAccess 1 (initR 2 2)).map sizeR) = some 1 ∧
    (((recordAccess 1 (initR 2 2)).bind (removeR 1)).map fun s =>
        (sizeR s, (evict s).1, (Util.assocFind s.map 1).isSome)) = some (1, none, true) :=
  ⟨rfl, rfl⟩

/-- The claim C5 counterexample access sequence (K = 3): frame 1 is
accessed first, then frame 2, then frame 1 again. -/
def c5Ops : List ROp := [ROp.ra 1, ROp.ra 2, ROp.ra 1]

/-- Claim C5 counterexample: with K = 3 and accesses 1, 2, 1, both
frames are evictable with fewer than K recorded accesses, and frame 1's
first access precedes frame 2's; the claim says `evict` returns frame 1
(earliest *first* access), but the source orders `history_list_` by each
frame's *most recent* access and returns frame 2. -/
theorem claim_c5_counterexample :
    c5Ops.head? = some (ROp.ra 1) ∧
    (runRG 7 3 c5Ops).map (fun p =>
        ((evict p.1).1,
         decide (∃ e ∈ p.1.history, e.frameId = 1 ∧ e.timesHit < p.1.k),
         decide (∃ e ∈ p.1.history, e.frameId = 2 ∧ e.timesHit < p.1.k)))
      = some (some 2, true, true) :=
  ⟨rfl, rfl⟩

/-! ### Ordering and membership lemmas for the replacer collections -/

/-- Entries ordered by timestamp; since every stamp comes from the
monotone `timestamp_` counter, the set order `(timestamp_, frame_id_)`
restricted to reachable states is exactly this. -/
def tsLt (a b : Entry) : Prop := a.timestamp < b.timestamp

theorem mem_insertSorted {x e : Entry} {l : List Entry} :
    x ∈ insertSorted e l ↔ x = e ∨ x ∈ l := by
  induction l with
  | nil => simp [insertSorted]
  | cons h t ih =>
    unfold insertSorted
    by_cases hc : e.lexLt h
    · simp only [hc, if_pos, List.mem_cons]
    · simp only [hc, Bool.false_eq_true, if_false, List.mem_cons, ih]
      tauto

theorem insertSorted_pairwise {e : Entry} {l : List Entry}
    (hl : l.Pairwise tsLt) (hne : ∀ x ∈ l, x.timestamp ≠ e.timestamp) :
    (insertSorted e l).Pairwise tsLt := by
  induction l with
  | nil => simp [insertSorted, List.pairwise_singleton]
  | cons h t ih =>
    rcases List.pairwise_cons.mp hl with ⟨hh, ht⟩
    by_cases hc : e.lexLt h
    · have hth : e.timestamp < h.timestamp := by
        have := hne h (by simp)
        simp only [Entry.lexLt, Bool.or_eq_true, decide_eq_true_eq, Bool.and_eq_true,
          beq_iff_eq] at hc
        omega
      simp only [insertSorted, hc, if_pos]
      refine List.pairwise_cons.mpr ⟨?_, hl⟩
      intro x hx
      rcases List.mem_cons.mp hx with h' | h'
      · subst h'; exact hth
      · have := hh x h'
        unfold tsLt at *
        omega
    · have hth : h.timestamp < e.timestamp := by
        have := hne h (by simp)
        simp only [Entry.lexLt, Bool.or_eq_true, decide_eq_true_eq, Bool.and_eq_true,
          beq_iff_eq] at hc
        omega
      simp only [insertSorted, hc, if_neg, if_false]
      refine List.pairwise_cons.mpr ⟨?_, ih ht fun x hx => hne x (by simp [hx])⟩
      intro x hx
      rcases mem_insertSorted.mp hx with h' | h'
      · subst h'; exact hth
      · exact hh x h'

theorem pairwise_ts_mem_eq {l : List Entry} (hl : l.Pairwise tsLt) :
    ∀ a ∈ l, ∀ b ∈ l, a.timestamp = b.timestamp → a = b := by
  induction l with
  | nil => simp
  | cons h t ih =>
    rcases List.pairwise_cons.mp hl with ⟨hh, ht⟩
    intro a ha b hb hab
    rcases List.mem_cons.mp ha with h1 | h1 <;> rcases List.mem_cons.mp hb with h2 | h2
    · rw [h1, h2]
    · subst h1
      have := hh b h2
      unfold tsLt at this
      omega
    · subst h2
      have := hh a h1
      unfold tsLt at this
      omega
    · exact ih ht a h1 b h2 hab

theorem pairwise_head_min {e : Entry} {t : List Entry}
    (h : (e :: t).Pairwise tsLt) : ∀ x ∈ e :: t, e.timestamp ≤ x.timestamp := by
  intro x hx
  rcases List.mem_cons.mp hx with h1 | h1
  · rw [h1]
  · have := (List.pairwise_cons.mp h).1 x h1
    unfold tsLt at this
    omega

theorem eraseChecked_eq {e : Entry} {l l' : List Entry}
    (h : eraseChecked e l = some l') : l' = l.erase e ∧ e ∈ l := by
  unfold eraseChecked at h
  by_cases hm : e ∈ l
  · simp only [hm, if_pos, Option.some.injEq] at h
    exact ⟨h.symm, hm⟩
  · simp [hm] at h

theorem mem_of_mem_erase {e x : Entry} {l : List Entry} (h : x ∈ l.erase e) : x ∈ l :=
  List.mem_of_mem_erase h

theorem erase_pairwise {e : Entry} {l : List Entry} (h : l.Pairwise tsLt) :
    (l.erase e).Pairwise tsLt :=
  h.sublist (List.erase_sublist e l)

theorem not_mem_tail {e : Entry} {t : List Entry}
    (h : (e :: t).Pairwise tsLt) : e ∉ t := by
  intro hmem
  have := (List.pairwise_cons.mp h).1 e hmem
  unfold tsLt at this
  omega

/-! ### The replacer state invariant over reachable states -/

open Util

/-- Invariant of every replacer state reachable through the public
operations: the three collections are timestamp-sorted with globally
distinct timestamps, `history_list_` holds only entries with fewer than
`k_` hits (or a single hit, covering `k_ ≤ 1`), `buffered_list_` only
entries with at least `k_` hits, each collection node is reachable from
`map_` under its own frame id, map values carry their key as frame id,
and all stamps are bounded by the current `timestamp_` counter. -/
structure RInvP (s : RState) : Prop where
  hsort : s.history.Pairwise tsLt
  bsort : s.buffered.Pairwise tsLt
  nsort : s.nonEvict.Pairwise tsLt
  xhb : ∀ a ∈ s.history, ∀ b ∈ s.buffered, a.timestamp ≠ b.timestamp
  xhn : ∀ a ∈ s.history, ∀ b ∈ s.nonEvict, a.timestamp ≠ b.timestamp
  xbn : ∀ a ∈ s.buffered, ∀ b ∈ s.nonEvict, a.timestamp ≠ b.timestamp
  hhits : ∀ e ∈ s.history, e.timesHit < s.k ∨ e.timesHit = 1
  bhits : ∀ e ∈ s.buffered, s.k ≤ e.timesHit
  hmap : ∀ e ∈ s.history, assocFind s.map e.frameId = some e
  bmap : ∀ e ∈ s.buffered, assocFind s.map e.frameId = some e
  nmap : ∀ e ∈ s.nonEvict, assocFind s.map e.frameId = some e
  mfid : ∀ p ∈ s.map, (p.2).frameId = p.1
  hts : ∀ e ∈ s.history, e.timestamp ≤ s.timestamp
  bts : ∀ e ∈ s.buffered, e.timestamp ≤ s.timestamp
  nts : ∀ e ∈ s.nonEvict, e.timestamp ≤ s.timestamp

/-- The ghost map records, for every collection entry, the `timestamp_`
value stamped at that frame's most recent `RecordAccess` (the replacer
stamps exactly when `timestamp_` advances, and moving an entry between
collections keeps its stamp). -/
def HGInv (s : RState) (g : Ghost) : Prop :=
  (∀ e ∈ s.history, assocFind g e.frameId = some e.timestamp) ∧
  (∀ e ∈ s.buffered, assocFind g e.frameId = some e.timestamp) ∧
  (∀ e ∈ s.nonEvict, assocFind g e.frameId = some e.timestamp)

theorem RInvP_init (cap k : Nat) : RInvP (initR cap k) := by
  constructor <;> simp [initR]

theorem HGInv_init (cap k : Nat) : HGInv (initR cap k) [] := by
  refine ⟨?_, ?_, ?_⟩ <;> simp [initR]

theorem evict_pres {s : RState} (hs : RInvP s) :
    RInvP (evict s).2 ∧
    (evict s).2.k = s.k ∧ (evict s).2.capacity = s.capacity ∧
    (evict s).2.timestamp = s.timestamp ∧ (evict s).2.nonEvict = s.nonEvict ∧
    (∀ x ∈ (evict s).2.history, x ∈ s.history) ∧
    (∀ x ∈ (evict s).2.buffered, x ∈ s.buffered) ∧
    (∀ f, assocFind s.map f = none → assocFind (evict s).2.map f = none) ∧
    (∀ g e2, assocFind s.map g = some e2 → e2 ∉ s.history → e2 ∉ s.buffered →
      assocFind (evict s).2.map g = some e2) := by
  rcases hh : s.history with _ | ⟨e, t⟩
  · rcases hb : s.buffered with _ | ⟨e, t⟩
    · simp only [evict, hh, hb]
      exact ⟨hs, trivial, trivial, trivial, trivial, by simp, by simp, fun f h => h,
        fun g e2 h _ _ => h⟩
    · simp only [evict, hh, hb]
      have hbs := hs.bsort
      rw [hb] at hbs
      have hemem : e ∈ s.buffered := by rw [hb]; simp
      have hef : assocFind s.map e.frameId = some e := hs.bmap e hemem
      have hfresh : ∀ x : Entry, x ≠ e →
          assocFind s.map x.frameId = some x → e.frameId ≠ x.frameId := by
        intro x hxe hfx hfeq
        rw [hfeq] at hef
        rw [hef] at hfx
        exact hxe (by injection hfx; simp_all)
      refine ⟨?_, trivial, trivial, trivial, trivial, by simp, ?_, ?_, ?_⟩
      · refine { hsort := by simp [hh], bsort := (List.pairwise_cons.mp hbs).2,
                 nsort := hs.nsort, xhb := by simp [hh], xhn := by simp [hh],
                 xbn := ?_, hhits := by simp [hh], bhits := ?_, hmap := by simp [hh],
                 bmap := ?_, nmap := ?_, mfid := ?_, hts := by simp [hh],
                 bts := ?_, nts := hs.nts }
        · intro a ha b hbn
          exact hs.xbn a (by rw [hb]; simp [ha]) b hbn
        · intro x hx
          exact hs.bhits x (by rw [hb]; simp [hx])
        · intro x hx
          have hxs : x ∈ s.buffered := by rw [hb]; simp [hx]
          have hfx := hs.bmap x hxs
          have hne : e.frameId ≠ x.frameId :=
            hfresh x (fun hxe => not_mem_tail hbs (hxe ▸ hx)) hfx
          rw [assocFind_erase_ne s.map e.frameId x.frameId hne]
          exact hfx
        · intro x hx
          have hfx := hs.nmap x hx
          have hne : e.frameId ≠ x.frameId :=
            hfresh x (fun hxe => hs.xbn e hemem e (hxe ▸ hx) rfl) hfx
          rw [assocFind_erase_ne s.map e.frameId x.frameId hne]
          exact hfx
        · intro p hp
          exact hs.mfid p (mem_assocErase s.map e.frameId p hp)
        · intro x hx
          exact hs.bts x (by rw [hb]; simp [hx])
      · intro x hx
        exact List.mem_cons_of_mem e hx
      · intro f hf
        exact assocFind_erase_none s.map e.frameId f hf
      · intro g e2 hg hnh hnb
        have hne : e.frameId ≠ g := by
          intro hfeq
          rw [hfeq] at hef
          rw [hef] at hg
          have : e = e2 := by injection hg
          subst this
          exact hnb (List.mem_cons_self e t)
        rw [assocFind_erase_ne s.map e.frameId g hne]
        exact hg
  · simp only [evict, hh]
    have hhs := hs.hsort
    rw [hh] at hhs
    have hemem : e ∈ s.history := by rw [hh]; simp
    have hef : assocFind s.map e.frameId = some e := hs.hmap e hemem
    have hfresh : ∀ x : Entry, x ≠ e →
        assocFind s.map x.frameId = some x → e.frameId ≠ x.frameId := by
      intro x hxe hfx hfeq
      rw [hfeq] at hef
      rw [hef] at hfx
      exact hxe (by injection hfx; simp_all)
    refine ⟨?_, trivial, trivial, trivial, trivial, ?_, fun x hx => hx, ?_, ?_⟩
    · refine { hsort := (List.pairwise_cons.mp hhs).2, bsort := hs.bsort,
               nsort := hs.nsort, xhb := ?_, xhn := ?_, xbn := hs.xbn,
               hhits := ?_, bhits := hs.bhits, hmap := ?_, bmap := ?_,
               nmap := ?_, mfid := ?_, hts := ?_, bts := hs.bts, nts := hs.nts }
      · intro a ha b hbn
        exact hs.xhb a (by rw [hh]; simp [ha]) b hbn
      · intro a ha b hbn
        exact hs.xhn a (by rw [hh]; simp [ha]) b hbn
      · intro x hx
        exact hs.hhits x (by rw [hh]; simp [hx])
      · intro x hx
        have hxs : x ∈ s.history := by rw [hh]; simp [hx]
        have hfx := hs.hmap x hxs
        have hne : e.frameId ≠ x.frameId :=
          hfresh x (fun hxe => not_mem_tail hhs (hxe ▸ hx)) hfx
        rw [assocFind_erase_ne s.map e.frameId x.frameId hne]
        exact hfx
      · intro x hx
        have hfx := hs.bmap x hx
        have hne : e.frameId ≠ x.frameId :=
          hfresh x (fun hxe => hs.xhb e hemem e (hxe ▸ hx) rfl) hfx
        rw [assocFind_erase_ne s.map e.frameId x.frameId hne]
        exact hfx
      · intro x hx
        have hfx := hs.nmap x hx
        have hne : e.frameId ≠ x.frameId :=
          hfresh x (fun hxe => hs.xhn e hemem e (hxe ▸ hx) rfl) hfx
        rw [assocFind_erase_ne s.map e.frameId x.frameId hne]
        exact hfx
      · intro p hp
        exact hs.mfid p (mem_assocErase s.map e.frameId p hp)
      · intro x hx
        exact hs.hts x (by rw [hh]; simp [hx])
    · intro x hx
      exact List.mem_cons_of_mem e hx
    · intro f hf
      exact assocFind_erase_none s.map e.frameId f hf
    · intro g e2 hg hnh hnb
      have hne : e.frameId ≠ g := by
        intro hfeq
        rw [hfeq] at hef
        rw [hef] at hg
        have : e = e2 := by injection hg
        subst this
        exact hnh (List.mem_cons_self e t)
      rw [assocFind_erase_ne s.map e.frameId g hne]
      exact hg

theorem pairwise_nodup {l : List Entry} (h : l.Pairwise tsLt) : l.Nodup :=
  h.imp fun hab heq => by
    subst heq
    unfold tsLt at hab
    omega

theorem not_mem_erase_self {e : Entry} {l : List Entry} (h : l.Pairwise tsLt) :
    e ∉ l.erase e :=
  (pairwise_nodup h).not_mem_erase

theorem find_fid {s : RState} (hs : RInvP s) {f : Nat} {e : Entry}
    (h : assocFind s.map f = some e) : e.frameId = f :=
  hs.mfid (f, e) (assocFind_mem _ _ _ h)

theorem recordAccess_pres {s s' : RState} {f : Nat} (hs : RInvP s)
    (h : recordAccess f s = some s') :
    RInvP s' ∧ s'.k = s.k ∧ s'.capacity = s.capacity := by
  unfold recordAccess at h
  rcases hfind : assocFind s.map f with _ | e
  · rw [hfind] at h
    by_cases hcap : s.currSize = s.capacity
    · rw [if_pos hcap] at h
      exact Option.noConfusion h
    · rw [if_neg hcap] at h
      simp only [Option.some.injEq] at h
      subst h
      refine ⟨{ hsort := ?_, bsort := hs.bsort, nsort := hs.nsort, xhb := ?_, xhn := ?_,
                xbn := hs.xbn, hhits := ?_, bhits := hs.bhits, hmap := ?_, bmap := ?_,
                nmap := ?_, mfid := ?_, hts := ?_, bts := ?_, nts := ?_ }, rfl, rfl⟩
      · exact insertSorted_pairwise hs.hsort fun x hx => by
          have := hs.hts x hx
          dsimp only
          omega
      · intro a ha b hb
        rcases mem_insertSorted.mp ha with h1 | h1
        · subst h1
          have := hs.bts b hb
          dsimp only
          omega
        · exact hs.xhb a h1 b hb
      · intro a ha b hb
        rcases mem_insertSorted.mp ha with h1 | h1
        · subst h1
          have := hs.nts b hb
          dsimp only
          omega
        · exact hs.xhn a h1 b hb
      · intro x hx
        rcases mem_insertSorted.mp hx with h1 | h1
        · subst h1
          exact Or.inr rfl
        · exact hs.hhits x h1
      · intro x hx
        rcases mem_insertSorted.mp hx with h1 | h1
        · subst h1
          exact assocFind_set_self s.map f _
        · have hne : f ≠ x.frameId := by
            intro hfeq
            have hx2 := hs.hmap x h1
            rw [← hfeq] at hx2
            rw [hfind] at hx2
            exact Option.noConfusion hx2
          dsimp only
          rw [assocFind_set_ne s.map f x.frameId _ hne]
          exact hs.hmap x h1
      · intro x hx
        have hne : f ≠ x.frameId := by
          intro hfeq
          have hx2 := hs.bmap x hx
          rw [← hfeq] at hx2
          rw [hfind] at hx2
          exact Option.noConfusion hx2
        dsimp only
        rw [assocFind_set_ne s.map f x.frameId _ hne]
        exact hs.bmap x hx
      · intro x hx
        have hne : f ≠ x.frameId := by
          intro hfeq
          have hx2 := hs.nmap x hx
          rw [← hfeq] at hx2
          rw [hfind] at hx2
          exact Option.noConfusion hx2
        dsimp only
        rw [assocFind_set_ne s.map f x.frameId _ hne]
        exact hs.nmap x hx
      · intro p hp
        rcases mem_assocSet s.map f _ p hp with h1 | h1
        · subst h1; rfl
        · exact hs.mfid p h1
      · intro x hx
        rcases mem_insertSorted.mp hx with h1 | h1
        · subst h1; exact le_refl _
        · have := hs.hts x h1
          dsimp only
          omega
      · intro x hx
        have := hs.bts x hx
        dsimp only
        omega
      · intro x hx
        have := hs.nts x hx
        dsimp only
        omega
  · rw [hfind] at h
    dsimp only at h
    by_cases hlive : e.live s
    · rw [if_pos hlive] at h
      have hfid : e.frameId = f := find_fid hs hfind
      by_cases hev : e.evictableFlag
      · by_cases hbuf : e.bufferedFlag
        · -- evictable, buffered: erase from buffered, re-emplace into buffered
          rcases herase : eraseChecked e s.buffered with _ | l
          · simp [hev, hbuf, herase] at h
          · obtain ⟨hl, hmem⟩ := eraseChecked_eq herase
            subst hl
            have hkhits : s.k ≤ e.timesHit + 1 := le_trans (hs.bhits e hmem) (by omega)
            simp only [hev, hbuf, Bool.not_true, Bool.false_eq_true, if_false, herase,
              Option.bind_eq_bind, Option.some_bind, Option.bind_some, Option.pure_def, if_true, if_pos hkhits,
              Option.some.injEq] at h
            subst h
            refine ⟨{ hsort := hs.hsort, bsort := ?_, nsort := hs.nsort, xhb := ?_,
                      xhn := hs.xhn, xbn := ?_, hhits := hs.hhits, bhits := ?_,
                      hmap := ?_, bmap := ?_, nmap := ?_, mfid := ?_, hts := ?_,
                      bts := ?_, nts := ?_ }, rfl, rfl⟩
            · exact insertSorted_pairwise (erase_pairwise hs.bsort) fun x hx => by
                have := hs.bts x (mem_of_mem_erase hx)
                dsimp only
                omega
            · intro a ha b hb
              rcases mem_insertSorted.mp hb with h1 | h1
              · subst h1
                have := hs.hts a ha
                dsimp only
                omega
              · exact hs.xhb a ha b (mem_of_mem_erase h1)
            · intro a ha b hb
              rcases mem_insertSorted.mp ha with h1 | h1
              · subst h1
                have := hs.nts b hb
                dsimp only
                omega
              · exact hs.xbn a (mem_of_mem_erase h1) b hb
            · intro x hx
              rcases mem_insertSorted.mp hx with h1 | h1
              · subst h1
                exact le_trans (hs.bhits e hmem) (by simp)
              · exact hs.bhits x (mem_of_mem_erase h1)
            · intro x hx
              have hne : f ≠ x.frameId := by
                intro hfeq
                have hx2 := hs.hmap x hx
                rw [← hfeq] at hx2
                rw [hfind] at hx2
                have hxe : e = x := by injection hx2
                subst hxe
                exact hs.xhb e hx e hmem rfl
              dsimp only
              rw [assocFind_set_ne _ f x.frameId _ hne]
              exact hs.hmap x hx
            · intro x hx
              rcases mem_insertSorted.mp hx with h1 | h1
              · subst h1
                dsimp only
                rw [hfid]
                exact assocFind_set_self _ f _
              · have hxb : x ∈ s.buffered := mem_of_mem_erase h1
                have hne : f ≠ x.frameId := by
                  intro hfeq
                  have hx2 := hs.bmap x hxb
                  rw [← hfeq] at hx2
                  rw [hfind] at hx2
                  have hxe : e = x := by injection hx2
                  subst hxe
                  exact not_mem_erase_self hs.bsort h1
                dsimp only
                rw [assocFind_set_ne _ f x.frameId _ hne]
                exact hs.bmap x hxb
            · intro x hx
              have hne : f ≠ x.frameId := by
                intro hfeq
                have hx2 := hs.nmap x hx
                rw [← hfeq] at hx2
                rw [hfind] at hx2
                have hxe : e = x := by injection hx2
                subst hxe
                exact hs.xbn e hmem e hx rfl
              dsimp only
              rw [assocFind_set_ne _ f x.frameId _ hne]
              exact hs.nmap x hx
            · intro p hp
              rcases mem_assocSet _ f _ p hp with h1 | h1
              · subst h1; exact hfid
              · exact hs.mfid p h1
            · intro x hx
              have := hs.hts x hx
              dsimp only
              omega
            · intro x hx
              rcases mem_insertSorted.mp hx with h1 | h1
              · subst h1; exact le_refl _
              · have := hs.bts x (mem_of_mem_erase h1)
                dsimp only
                omega
            · intro x hx
              have := hs.nts x hx
              dsimp only
              omega
        · -- evictable, not buffered: erase from history, re-emplace by hit count
          rcases herase : eraseChecked e s.history with _ | l
          · simp [hev, hbuf, herase] at h
          · obtain ⟨hl, hmem⟩ := eraseChecked_eq herase
            subst hl
            by_cases hk : s.k ≤ e.timesHit + 1
            · simp only [hev, hbuf, Bool.not_true, Bool.false_eq_true, if_false, herase,
                Option.bind_eq_bind, Option.some_bind, Option.bind_some, Option.pure_def, if_true, if_pos hk,
                Option.some.injEq] at h
              subst h
              refine ⟨{ hsort := ?_, bsort := ?_, nsort := hs.nsort, xhb := ?_,
                        xhn := ?_, xbn := ?_, hhits := ?_, bhits := ?_,
                        hmap := ?_, bmap := ?_, nmap := ?_, mfid := ?_, hts := ?_,
                        bts := ?_, nts := ?_ }, rfl, rfl⟩
              · exact erase_pairwise hs.hsort
              · exact insertSorted_pairwise hs.bsort fun x hx => by
                  have := hs.bts x hx
                  dsimp only
                  omega
              · intro a ha b hb
                rcases mem_insertSorted.mp hb with h1 | h1
                · subst h1
                  have := hs.hts a (mem_of_mem_erase ha)
                  dsimp only
                  omega
                · exact hs.xhb a (mem_of_mem_erase ha) b h1
              · intro a ha b hb
                exact hs.xhn a (mem_of_mem_erase ha) b hb
              · intro a ha b hb
                rcases mem_insertSorted.mp ha with h1 | h1
                · subst h1
                  have := hs.nts b hb
                  dsimp only
                  omega
                · exact hs.xbn a h1 b hb
              · intro x hx
                exact hs.hhits x (mem_of_mem_erase hx)
              · intro x hx
                rcases mem_insertSorted.mp hx with h1 | h1
                · subst h1
                  simpa using hk
                · exact hs.bhits x h1
              · intro x hx
                have hxh : x ∈ s.history := mem_of_mem_erase hx
                have hne : f ≠ x.frameId := by
                  intro hfeq
                  have hx2 := hs.hmap x hxh
                  rw [← hfeq] at hx2
                  rw [hfind] at hx2
                  have hxe : e = x := by injection hx2
                  subst hxe
                  exact not_mem_erase_self hs.hsort hx
                dsimp only
                rw [assocFind_set_ne _ f x.frameId _ hne]
                exact hs.hmap x hxh
              · intro x hx
                rcases mem_insertSorted.mp hx with h1 | h1
                · subst h1
                  dsimp only
                  rw [hfid]
                  exact assocFind_set_self _ f _
                · have hne : f ≠ x.frameId := by
                    intro hfeq
                    have hx2 := hs.bmap x h1
                    rw [← hfeq] at hx2
                    rw [hfind] at hx2
                    have hxe : e = x := by injection hx2
                    subst hxe
                    exact hs.xhb e hmem e h1 rfl
                  dsimp only
                  rw [assocFind_set_ne _ f x.frameId _ hne]
                  exact hs.bmap x h1
              · intro x hx
                have hne : f ≠ x.frameId := by
                  intro hfeq
                  have hx2 := hs.nmap x hx
                  rw [← hfeq] at hx2
                  rw [hfind] at hx2
                  have hxe : e = x := by injection hx2
                  subst hxe
                  exact hs.xhn e hmem e hx rfl
                dsimp only
                rw [assocFind_set_ne _ f x.frameId _ hne]
                exact hs.nmap x hx
              · intro p hp
                rcases mem_assocSet _ f _ p hp with h1 | h1
                · subst h1; exact hfid
                · exact hs.mfid p h1
              · intro x hx
                have := hs.hts x (mem_of_mem_erase hx)
                dsimp only
                omega
              · intro x hx
                rcases mem_insertSorted.mp hx with h1 | h1
                · subst h1; exact le_refl _
                · have := hs.bts x h1
                  dsimp only
                  omega
              · intro x hx
                have := hs.nts x hx
                dsimp only
                omega
            · simp only [hev, hbuf, Bool.not_true, Bool.false_eq_true, if_false, herase,
                Option.bind_eq_bind, Option.some_bind, Option.bind_some, Option.pure_def, if_true, if_neg hk,
                Option.some.injEq] at h
              subst h
              refine ⟨{ hsort := ?_, bsort := hs.bsort, nsort := hs.nsort, xhb := ?_,
                        xhn := ?_, xbn := hs.xbn, hhits := ?_, bhits := hs.bhits,
                        hmap := ?_, bmap := ?_, nmap := ?_, mfid := ?_, hts := ?_,
                        bts := ?_, nts := ?_ }, rfl, rfl⟩
              · exact insertSorted_pairwise (erase_pairwise hs.hsort) fun x hx => by
                  have := hs.hts x (mem_of_mem_erase hx)
                  dsimp only
                  omega
              · intro a ha b hb
                rcases mem_insertSorted.mp ha with h1 | h1
                · subst h1
                  have := hs.bts b hb
                  dsimp only
                  omega
                · exact hs.xhb a (mem_of_mem_erase h1) b hb
              · intro a ha b hb
                rcases mem_insertSorted.mp ha with h1 | h1
                · subst h1
                  have := hs.nts b hb
                  dsimp only
                  omega
                · exact hs.xhn a (mem_of_mem_erase h1) b hb
              · intro x hx
                rcases mem_insertSorted.mp hx with h1 | h1
                · subst h1
                  exact Or.inl (by simpa using hk)
                · exact hs.hhits x (mem_of_mem_erase h1)
              · intro x hx
                rcases mem_insertSorted.mp hx with h1 | h1
                · subst h1
                  dsimp only
                  rw [hfid]
                  exact assocFind_set_self _ f _
                · have hxh : x ∈ s.history := mem_of_mem_erase h1
                  have hne : f ≠ x.frameId := by
                    intro hfeq
                    have hx2 := hs.hmap x hxh
                    rw [← hfeq] at hx2
                    rw [hfind] at hx2
                    have hxe : e = x := by injection hx2
                    subst hxe
                    exact not_mem_erase_self hs.hsort h1
                  dsimp only
                  rw [assocFind_set_ne _ f x.frameId _ hne]
                  exact hs.hmap x hxh
              · intro x hx
                have hne : f ≠ x.frameId := by
                  intro hfeq
                  have hx2 := hs.bmap x hx
                  rw [← hfeq] at hx2
                  rw [hfind] at hx2
                  have hxe : e = x := by injection hx2
                  subst hxe
                  exact hs.xhb e hmem e hx rfl
                dsimp only
                rw [assocFind_set_ne _ f x.frameId _ hne]
                exact hs.bmap x hx
              · intro x hx
                have hne : f ≠ x.frameId := by
                  intro hfeq
                  have hx2 := hs.nmap x hx
                  rw [← hfeq] at hx2
                  rw [hfind] at hx2
                  have hxe : e = x := by injection hx2
                  subst hxe
                  exact hs.xhn e hmem e hx rfl
                dsimp only
                rw [assocFind_set_ne _ f x.frameId _ hne]
                exact hs.nmap x hx
              · intro p hp
                rcases mem_assocSet _ f _ p hp with h1 | h1
                · subst h1; exact hfid
                · exact hs.mfid p h1
              · intro x hx
                rcases mem_insertSorted.mp hx with h1 | h1
                · subst h1; exact le_refl _
                · have := hs.hts x (mem_of_mem_erase h1)
                  dsimp only
                  omega
              · intro x hx
                have := hs.bts x hx
                dsimp only
                omega
              · intro x hx
                have := hs.nts x hx
                dsimp only
                omega
      · -- non-evictable: erase from none_evictable, re-emplace there
        rcases herase : eraseChecked e s.nonEvict with _ | l
        · simp [hev, herase] at h
        · obtain ⟨hl, hmem⟩ := eraseChecked_eq herase
          subst hl
          simp only [hev, Bool.not_false, if_true, herase, Option.bind_eq_bind,
            Option.some_bind, Option.bind_some, Option.pure_def, Option.some.injEq] at h
          subst h
          refine ⟨{ hsort := hs.hsort, bsort := hs.bsort, nsort := ?_, xhb := hs.xhb,
                    xhn := ?_, xbn := ?_, hhits := hs.hhits, bhits := hs.bhits,
                    hmap := ?_, bmap := ?_, nmap := ?_, mfid := ?_, hts := ?_,
                    bts := ?_, nts := ?_ }, rfl, rfl⟩
          · exact insertSorted_pairwise (erase_pairwise hs.nsort) fun x hx => by
              have := hs.nts x (mem_of_mem_erase hx)
              dsimp only
              omega
          · intro a ha b hb
            rcases mem_insertSorted.mp hb with h1 | h1
            · subst h1
              have := hs.hts a ha
              dsimp only
              omega
            · exact hs.xhn a ha b (mem_of_mem_erase h1)
          · intro a ha b hb
            rcases mem_insertSorted.mp hb with h1 | h1
            · subst h1
              have := hs.bts a ha
              dsimp only
              omega
            · exact hs.xbn a ha b (mem_of_mem_erase h1)
          · intro x hx
            have hne : f ≠ x.frameId := by
              intro hfeq
              have hx2 := hs.hmap x hx
              rw [← hfeq] at hx2
              rw [hfind] at hx2
              have hxe : e = x := by injection hx2
              subst hxe
              exact hs.xhn e hx e hmem rfl
            dsimp only
            rw [assocFind_set_ne _ f x.frameId _ hne]
            exact hs.hmap x hx
          · intro x hx
            have hne : f ≠ x.frameId := by
              intro hfeq
              have hx2 := hs.bmap x hx
              rw [← hfeq] at hx2
              rw [hfind] at hx2
              have hxe : e = x := by injection hx2
              subst hxe
              exact hs.xbn e hx e hmem rfl
            dsimp only
            rw [assocFind_set_ne _ f x.frameId _ hne]
            exact hs.bmap x hx
          · intro x hx
            rcases mem_insertSorted.mp hx with h1 | h1
            · subst h1
              dsimp only
              rw [hfid]
              exact assocFind_set_self _ f _
            · have hxn : x ∈ s.nonEvict := mem_of_mem_erase h1
              have hne : f ≠ x.frameId := by
                intro hfeq
                have hx2 := hs.nmap x hxn
                rw [← hfeq] at hx2
                rw [hfind] at hx2
                have hxe : e = x := by injection hx2
                subst hxe
                exact not_mem_erase_self hs.nsort h1
              dsimp only
              rw [assocFind_set_ne _ f x.frameId _ hne]
              exact hs.nmap x hxn
          · intro p hp
            rcases mem_assocSet _ f _ p hp with h1 | h1
            · subst h1; exact hfid
            · exact hs.mfid p h1
          · intro x hx
            have := hs.hts x hx
            dsimp only
            omega
          · intro x hx
            have := hs.bts x hx
            dsimp only
            omega
          · intro x hx
            rcases mem_insertSorted.mp hx with h1 | h1
            · subst h1; exact le_refl _
            · have := hs.nts x (mem_of_mem_erase h1)
              dsimp only
              omega
    · rw [if_neg hlive] at h
      exact Option.noConfusion h

theorem removeR_pres {s s' : RState} {f : Nat} (hs : RInvP s)
    (h : removeR f s = some s') :
    RInvP s' ∧ s'.k = s.k ∧ s'.capacity = s.capacity := by
  unfold removeR at h
  rcases hfind : assocFind s.map f with _ | e
  · rw [hfind] at h
    dsimp only at h
    simp only [Option.some.injEq] at h
    subst h
    exact ⟨hs, rfl, rfl⟩
  · rw [hfind] at h
    dsimp only at h
    by_cases hlive : e.live s
    case neg =>
      rw [if_neg hlive] at h
      exact Option.noConfusion h
    rw [if_pos hlive] at h
    by_cases hev : e.evictableFlag
    case neg =>
      rw [if_neg hev] at h
      exact Option.noConfusion h
    rw [if_pos hev] at h
    by_cases hbuf : e.bufferedFlag
    · rw [if_pos hbuf] at h
      rcases herase : eraseChecked e s.buffered with _ | l
      · simp [herase] at h
      · obtain ⟨hl, hmem⟩ := eraseChecked_eq herase
        subst hl
        simp only [herase, Option.bind_eq_bind, Option.some_bind, Option.some.injEq] at h
        subst h
        refine ⟨{ hsort := hs.hsort, bsort := erase_pairwise hs.bsort, nsort := hs.nsort,
                  xhb := ?_, xhn := hs.xhn, xbn := ?_, hhits := hs.hhits, bhits := ?_,
                  hmap := hs.hmap, bmap := ?_, nmap := hs.nmap, mfid := hs.mfid,
                  hts := hs.hts, bts := ?_, nts := hs.nts }, rfl, rfl⟩
        · intro a ha b hb
          exact hs.xhb a ha b (mem_of_mem_erase hb)
        · intro a ha b hb
          exact hs.xbn a (mem_of_mem_erase ha) b hb
        · intro x hx
          exact hs.bhits x (mem_of_mem_erase hx)
        · intro x hx
          exact hs.bmap x (mem_of_mem_erase hx)
        · intro x hx
          exact hs.bts x (mem_of_mem_erase hx)
    · rw [if_neg hbuf] at h
      rcases herase : eraseChecked e s.history with _ | l
      · simp [herase] at h
      · obtain ⟨hl, hmem⟩ := eraseChecked_eq herase
        subst hl
        simp only [herase, Option.bind_eq_bind, Option.some_bind, Option.some.injEq] at h
        subst h
        refine ⟨{ hsort := erase_pairwise hs.hsort, bsort := hs.bsort, nsort := hs.nsort,
                  xhb := ?_, xhn := ?_, xbn := hs.xbn, hhits := ?_, bhits := hs.bhits,
                  hmap := ?_, bmap := hs.bmap, nmap := hs.nmap, mfid := hs.mfid,
                  hts := ?_, bts := hs.bts, nts := hs.nts }, rfl, rfl⟩
        · intro a ha b hb
          exact hs.xhb a (mem_of_mem_erase ha) b hb
        · intro a ha b hb
          exact hs.xhn a (mem_of_mem_erase ha) b hb
        · intro x hx
          exact hs.hhits x (mem_of_mem_erase hx)
        · intro x hx
          exact hs.hmap x (mem_of_mem_erase hx)
        · intro x hx
          exact hs.hts x (mem_of_mem_erase hx)

/-- Re-emplacement of a frame made evictable again (`SetEvictable`
branch 1) into `buffered_list_`, after the optional capacity eviction
produced intermediate state `s2`. -/
theorem setEv_b1_buffered {s s2 : RState} {e : Entry} {f : Nat}
    (hs : RInvP s) (hmem : e ∈ s.nonEvict) (hp2 : RInvP s2)
    (hk2 : s2.k = s.k) (hts2 : s2.timestamp = s.timestamp)
    (hn2 : s2.nonEvict = s.nonEvict.erase e)
    (hsubH : ∀ x ∈ s2.history, x ∈ s.history)
    (hsubB : ∀ x ∈ s2.buffered, x ∈ s.buffered)
    (hfind2 : assocFind s2.map f = some e)
    (hfid : e.frameId = f)
    (hhit : s.k ≤ e.timesHit) :
    RInvP { s2 with buffered := insertSorted e s2.buffered,
                    map := assocSet s2.map f e, currSize := s2.currSize + 1 } := by
  refine { hsort := hp2.hsort, bsort := ?_, nsort := hp2.nsort, xhb := ?_,
           xhn := hp2.xhn, xbn := ?_, hhits := hp2.hhits, bhits := ?_,
           hmap := ?_, bmap := ?_, nmap := ?_, mfid := ?_, hts := hp2.hts,
           bts := ?_, nts := hp2.nts }
  · exact insertSorted_pairwise hp2.bsort fun x hx =>
      hs.xbn x (hsubB x hx) e hmem
  · intro a ha b hb
    rcases mem_insertSorted.mp hb with h1 | h1
    · subst h1
      exact hs.xhn a (hsubH a ha) b hmem
    · exact hp2.xhb a ha b h1
  · intro a ha b hb
    rcases mem_insertSorted.mp ha with h1 | h1
    · subst h1
      intro hts
      have hbn : b ∈ s.nonEvict := by
        rw [hn2] at hb
        exact mem_of_mem_erase hb
      have := pairwise_ts_mem_eq hs.nsort a hmem b hbn hts
      subst this
      rw [hn2] at hb
      exact not_mem_erase_self hs.nsort hb
    · exact hp2.xbn a h1 b hb
  · intro x hx
    rcases mem_insertSorted.mp hx with h1 | h1
    · subst h1
      dsimp only
      rw [hk2]
      exact hhit
    · exact hp2.bhits x h1
  · intro x hx
    have hne : f ≠ x.frameId := by
      intro hfeq
      have hx2 := hp2.hmap x hx
      rw [← hfeq] at hx2
      rw [hfind2] at hx2
      have hxe : e = x := by injection hx2
      subst hxe
      exact hs.xhn e (hsubH e hx) e hmem rfl
    dsimp only
    rw [assocFind_set_ne _ f x.frameId _ hne]
    exact hp2.hmap x hx
  · intro x hx
    rcases mem_insertSorted.mp hx with h1 | h1
    · subst h1
      dsimp only
      rw [hfid]
      exact assocFind_set_self _ f _
    · have hne : f ≠ x.frameId := by
        intro hfeq
        have hx2 := hp2.bmap x h1
        rw [← hfeq] at hx2
        rw [hfind2] at hx2
        have hxe : e = x := by injection hx2
        subst hxe
        exact hs.xbn e (hsubB e h1) e hmem rfl
      dsimp only
      rw [assocFind_set_ne _ f x.frameId _ hne]
      exact hp2.bmap x h1
  · intro x hx
    have hne : f ≠ x.frameId := by
      intro hfeq
      have hx2 := hp2.nmap x hx
      rw [← hfeq] at hx2
      rw [hfind2] at hx2
      have hxe : e = x := by injection hx2
      subst hxe
      rw [hn2] at hx
      exact not_mem_erase_self hs.nsort hx
    dsimp only
    rw [assocFind_set_ne _ f x.frameId _ hne]
    exact hp2.nmap x hx
  · intro p hp
    rcases mem_assocSet _ f _ p hp with h1 | h1
    · subst h1
      exact hfid
    · exact hp2.mfid p h1
  · intro x hx
    rcases mem_insertSorted.mp hx with h1 | h1
    · subst h1
      dsimp only
      rw [hts2]
      exact hs.nts x hmem
    · exact hp2.bts x h1

/-- As `setEv_b1_buffered` but for the history re-emplacement. -/
theorem setEv_b1_history {s s2 : RState} {e : Entry} {f : Nat}
    (hs : RInvP s) (hmem : e ∈ s.nonEvict) (hp2 : RInvP s2)
    (hk2 : s2.k = s.k) (hts2 : s2.timestamp = s.timestamp)
    (hn2 : s2.nonEvict = s.nonEvict.erase e)
    (hsubH : ∀ x ∈ s2.history, x ∈ s.history)
    (hsubB : ∀ x ∈ s2.buffered, x ∈ s.buffered)
    (hfind2 : assocFind s2.map f = some e)
    (hfid : e.frameId = f)
    (hhit : ¬ s.k ≤ e.timesHit) :
    RInvP { s2 with history := insertSorted e s2.history,
                    map := assocSet s2.map f e, currSize := s2.currSize + 1 } := by
  refine { hsort := ?_, bsort := hp2.bsort, nsort := hp2.nsort, xhb := ?_,
           xhn := ?_, xbn := hp2.xbn, hhits := ?_, bhits := hp2.bhits,
           hmap := ?_, bmap := ?_, nmap := ?_, mfid := ?_, hts := ?_,
           bts := hp2.bts, nts := hp2.nts }
  · exact insertSorted_pairwise hp2.hsort fun x hx =>
      hs.xhn x (hsubH x hx) e hmem
  · intro a ha b hb
    rcases mem_insertSorted.mp ha with h1 | h1
    · subst h1
      intro hts
      exact hs.xbn b (hsubB b hb) a hmem hts.symm
    · exact hp2.xhb a h1 b hb
  · intro a ha b hb
    rcases mem_insertSorted.mp ha with h1 | h1
    · subst h1
      intro hts
      have hbn : b ∈ s.nonEvict := by
        rw [hn2] at hb
        exact mem_of_mem_erase hb
      have := pairwise_ts_mem_eq hs.nsort a hmem b hbn hts
      subst this
      rw [hn2] at hb
      exact not_mem_erase_self hs.nsort hb
    · exact hp2.xhn a h1 b hb
  · intro x hx
    rcases mem_insertSorted.mp hx with h1 | h1
    · subst h1
      dsimp only
      rw [hk2]
      exact Or.inl (by omega)
    · exact hp2.hhits x h1
  · intro x hx
    rcases mem_insertSorted.mp hx with h1 | h1
    · subst h1
      dsimp only
      rw [hfid]
      exact assocFind_set_self _ f _
    · have hne : f ≠ x.frameId := by
        intro hfeq
        have hx2 := hp2.hmap x h1
        rw [← hfeq] at hx2
        rw [hfind2] at hx2
        have hxe : e = x := by injection hx2
        subst hxe
        exact hs.xhn e (hsubH e h1) e hmem rfl
      dsimp only
      rw [assocFind_set_ne _ f x.frameId _ hne]
      exact hp2.hmap x h1
  · intro x hx
    have hne : f ≠ x.frameId := by
      intro hfeq
      have hx2 := hp2.bmap x hx
      rw [← hfeq] at hx2
      rw [hfind2] at hx2
      have hxe : e = x := by injection hx2
      subst hxe
      exact hs.xbn e (hsubB e hx) e hmem rfl
    dsimp only
    rw [assocFind_set_ne _ f x.frameId _ hne]
    exact hp2.bmap x hx
  · intro x hx
    have hne : f ≠ x.frameId := by
      intro hfeq
      have hx2 := hp2.nmap x hx
      rw [← hfeq] at hx2
      rw [hfind2] at hx2
      have hxe : e = x := by injection hx2
      subst hxe
      rw [hn2] at hx
      exact not_mem_erase_self hs.nsort hx
    dsimp only
    rw [assocFind_set_ne _ f x.frameId _ hne]
    exact hp2.nmap x hx
  · intro p hp
    rcases mem_assocSet _ f _ p hp with h1 | h1
    · subst h1
      exact hfid
    · exact hp2.mfid p h1
  · intro x hx
    rcases mem_insertSorted.mp hx with h1 | h1
    · subst h1
      dsimp only
      rw [hts2]
      exact hs.nts x hmem
    · exact hp2.hts x h1

theorem setEvictable_pres {s s' : RState} {f : Nat} {flag : Bool} (hs : RInvP s)
    (h : setEvictable f flag s = some s') :
    RInvP s' ∧ s'.k = s.k ∧ s'.capacity = s.capacity := by
  unfold setEvictable at h
  rcases hfind : assocFind s.map f with _ | e
  · rw [hfind] at h
    dsimp only at h
    simp only [Option.some.injEq] at h
    subst h
    exact ⟨hs, rfl, rfl⟩
  · rw [hfind] at h
    dsimp only at h
    have hfid : e.frameId = f := find_fid hs hfind
    by_cases hlive : e.live s
    case neg =>
      rw [if_neg hlive] at h
      exact Option.noConfusion h
    rw [if_pos hlive] at h
    by_cases hb1 : (!e.evictableFlag && flag) = true
    · rw [if_pos hb1] at h
      rcases herase : eraseChecked e s.nonEvict with _ | l
      · simp [herase] at h
      · obtain ⟨hl, hmem⟩ := eraseChecked_eq herase
        subst hl
        simp only [herase, Option.bind_eq_bind, Option.some_bind] at h
        have hinv1 : RInvP { s with nonEvict := s.nonEvict.erase e } := by
          refine { hsort := hs.hsort, bsort := hs.bsort, nsort := erase_pairwise hs.nsort,
                   xhb := hs.xhb, xhn := ?_, xbn := ?_, hhits := hs.hhits,
                   bhits := hs.bhits, hmap := hs.hmap, bmap := hs.bmap, nmap := ?_,
                   mfid := hs.mfid, hts := hs.hts, bts := hs.bts, nts := ?_ }
          · intro a ha b hb
            exact hs.xhn a ha b (mem_of_mem_erase hb)
          · intro a ha b hb
            exact hs.xbn a ha b (mem_of_mem_erase hb)
          · intro x hx
            exact hs.nmap x (mem_of_mem_erase hx)
          · intro x hx
            exact hs.nts x (mem_of_mem_erase hx)
        by_cases hcap : s.currSize = s.capacity
        · rw [if_pos hcap] at h
          simp at h
        · rw [if_neg hcap] at h
          have hfind2 : assocFind ({ s with nonEvict := s.nonEvict.erase e } : RState).map f
              = some e := hfind
          by_cases hk : s.k ≤ e.timesHit
          · rw [if_pos hk] at h
            simp only [Option.some.injEq] at h
            subst h
            exact ⟨setEv_b1_buffered hs hmem hinv1 rfl rfl rfl (fun x hx => hx)
              (fun x hx => hx) hfind2 hfid hk, rfl, rfl⟩
          · rw [if_neg hk] at h
            simp only [Option.some.injEq] at h
            subst h
            exact ⟨setEv_b1_history hs hmem hinv1 rfl rfl rfl (fun x hx => hx)
              (fun x hx => hx) hfind2 hfid hk, rfl, rfl⟩
    · rw [if_neg hb1] at h
      by_cases hb2 : (e.bufferedFlag && !flag) = true
      · rw [if_pos hb2] at h
        rcases herase : eraseChecked e s.buffered with _ | l
        · simp [herase] at h
        · obtain ⟨hl, hmem⟩ := eraseChecked_eq herase
          subst hl
          simp only [herase, Option.bind_eq_bind, Option.some_bind, Option.some.injEq] at h
          subst h
          refine ⟨{ hsort := hs.hsort, bsort := erase_pairwise hs.bsort, nsort := ?_,
                    xhb := ?_, xhn := ?_, xbn := ?_, hhits := hs.hhits, bhits := ?_,
                    hmap := ?_, bmap := ?_, nmap := ?_, mfid := ?_, hts := hs.hts,
                    bts := ?_, nts := ?_ }, rfl, rfl⟩
          · exact insertSorted_pairwise hs.nsort fun x hx => by
              dsimp only
              exact fun hq => hs.xbn e hmem x hx hq.symm
          · intro a ha b hb
            exact hs.xhb a ha b (mem_of_mem_erase hb)
          · intro a ha b hb
            rcases mem_insertSorted.mp hb with h1 | h1
            · subst h1
              exact hs.xhb a ha e hmem
            · exact hs.xhn a ha b h1
          · intro a ha b hb
            rcases mem_insertSorted.mp hb with h1 | h1
            · subst h1
              intro hts
              have := pairwise_ts_mem_eq hs.bsort a (mem_of_mem_erase ha) e hmem hts
              subst this
              exact not_mem_erase_self hs.bsort ha
            · exact hs.xbn a (mem_of_mem_erase ha) b h1
          · intro x hx
            exact hs.bhits x (mem_of_mem_erase hx)
          · intro x hx
            have hne : f ≠ x.frameId := by
              intro hfeq
              have hx2 := hs.hmap x hx
              rw [← hfeq] at hx2
              rw [hfind] at hx2
              have hxe : e = x := by injection hx2
              subst hxe
              exact hs.xhb e hx e hmem rfl
            dsimp only
            rw [assocFind_set_ne _ f x.frameId _ hne]
            exact hs.hmap x hx
          · intro x hx
            have hxb : x ∈ s.buffered := mem_of_mem_erase hx
            have hne : f ≠ x.frameId := by
              intro hfeq
              have hx2 := hs.bmap x hxb
              rw [← hfeq] at hx2
              rw [hfind] at hx2
              have hxe : e = x := by injection hx2
              subst hxe
              exact not_mem_erase_self hs.bsort hx
            dsimp only
            rw [assocFind_set_ne _ f x.frameId _ hne]
            exact hs.bmap x hxb
          · intro x hx
            rcases mem_insertSorted.mp hx with h1 | h1
            · subst h1
              dsimp only
              rw [hfid]
              exact assocFind_set_self _ f _
            · have hne : f ≠ x.frameId := by
                intro hfeq
                have hx2 := hs.nmap x h1
                rw [← hfeq] at hx2
                rw [hfind] at hx2
                have hxe : e = x := by injection hx2
                subst hxe
                exact hs.xbn e hmem e h1 rfl
              dsimp only
              rw [assocFind_set_ne _ f x.frameId _ hne]
              exact hs.nmap x h1
          · intro p hp
            rcases mem_assocSet _ f _ p hp with h1 | h1
            · subst h1
              exact hfid
            · exact hs.mfid p h1
          · intro x hx
            exact hs.bts x (mem_of_mem_erase hx)
          · intro x hx
            rcases mem_insertSorted.mp hx with h1 | h1
            · subst h1
              dsimp only
              exact hs.bts e hmem
            · exact hs.nts x h1
      · rw [if_neg hb2] at h
        by_cases hb3 : (e.evictableFlag && !flag) = true
        · rw [if_pos hb3] at h
          rcases herase : eraseChecked e s.history with _ | l
          · simp [herase] at h
          · obtain ⟨hl, hmem⟩ := eraseChecked_eq herase
            subst hl
            simp only [herase, Option.bind_eq_bind, Option.some_bind,
              Option.some.injEq] at h
            subst h
            refine ⟨{ hsort := erase_pairwise hs.hsort, bsort := hs.bsort, nsort := ?_,
                      xhb := ?_, xhn := ?_, xbn := ?_, hhits := ?_, bhits := hs.bhits,
                      hmap := ?_, bmap := ?_, nmap := ?_, mfid := ?_, hts := ?_,
                      bts := hs.bts, nts := ?_ }, rfl, rfl⟩
            · exact insertSorted_pairwise hs.nsort fun x hx => by
                dsimp only
                exact fun hq => hs.xhn e hmem x hx hq.symm
            · intro a ha b hb
              exact hs.xhb a (mem_of_mem_erase ha) b hb
            · intro a ha b hb
              rcases mem_insertSorted.mp hb with h1 | h1
              · subst h1
                intro hts
                have := pairwise_ts_mem_eq hs.hsort a (mem_of_mem_erase ha) e hmem hts
                subst this
                exact not_mem_erase_self hs.hsort ha
              · exact hs.xhn a (mem_of_mem_erase ha) b h1
            · intro a ha b hb
              rcases mem_insertSorted.mp hb with h1 | h1
              · subst h1
                intro hts
                exact hs.xhb e hmem a ha hts.symm
              · exact hs.xbn a ha b h1
            · intro x hx
              exact hs.hhits x (mem_of_mem_erase hx)
            · intro x hx
              have hxh : x ∈ s.history := mem_of_mem_erase hx
              have hne : f ≠ x.frameId := by
                intro hfeq
                have hx2 := hs.hmap x hxh
                rw [← hfeq] at hx2
                rw [hfind] at hx2
                have hxe : e = x := by injection hx2
                subst hxe
                exact not_mem_erase_self hs.hsort hx
              dsimp only
              rw [assocFind_set_ne _ f x.frameId _ hne]
              exact hs.hmap x hxh
            · intro x hx
              have hne : f ≠ x.frameId := by
                intro hfeq
                have hx2 := hs.bmap x hx
                rw [← hfeq] at hx2
                rw [hfind] at hx2
                have hxe : e = x := by injection hx2
                subst hxe
                exact hs.xhb e hmem e hx rfl
              dsimp only
              rw [assocFind_set_ne _ f x.frameId _ hne]
              exact hs.bmap x hx
            · intro x hx
              rcases mem_insertSorted.mp hx with h1 | h1
              · subst h1
                dsimp only
                rw [hfid]
                exact assocFind_set_self _ f _
              · have hne : f ≠ x.frameId := by
                  intro hfeq
                  have hx2 := hs.nmap x h1
                  rw [← hfeq] at hx2
                  rw [hfind] at hx2
                  have hxe : e = x := by injection hx2
                  subst hxe
                  exact hs.xhn e hmem e h1 rfl
                dsimp only
                rw [assocFind_set_ne _ f x.frameId _ hne]
                exact hs.nmap x h1
            · intro p hp
              rcases mem_assocSet _ f _ p hp with h1 | h1
              · subst h1
                exact hfid
              · exact hs.mfid p h1
            · intro x hx
              exact hs.hts x (mem_of_mem_erase hx)
            · intro x hx
              rcases mem_insertSorted.mp hx with h1 | h1
              · subst h1
                dsimp only
                exact hs.hts e hmem
              · exact hs.nts x h1
        · rw [if_neg hb3] at h
          simp only [Option.some.injEq] at h
          subst h
          exact ⟨hs, rfl, rfl⟩

theorem evict_ghost {s : RState} {g : Ghost} (hg : HGInv s g) :
    HGInv (evict s).2 g := by
  rcases hh : s.history with _ | ⟨e, t⟩
  · rcases hb : s.buffered with _ | ⟨e, t⟩
    · simp only [evict, hh, hb]
      exact hg
    · obtain ⟨hg1, hg2, hg3⟩ := hg
      simp only [evict, hh, hb]
      refine ⟨by rw [hh] at hg1; exact hg1, ?_, hg3⟩
      intro x hx
      exact hg2 x (by rw [hb]; exact List.mem_cons_of_mem e hx)
  · obtain ⟨hg1, hg2, hg3⟩ := hg
    simp only [evict, hh]
    refine ⟨?_, hg2, hg3⟩
    intro x hx
    exact hg1 x (by rw [hh]; exact List.mem_cons_of_mem e hx)

theorem recordAccess_ghost {s s' : RState} {g : Ghost} {f : Nat} (hs : RInvP s)
    (hg : HGInv s g) (h : recordAccess f s = some s') :
    HGInv s' (if s'.timestamp ≠ s.timestamp then assocSet g f s'.timestamp else g) := by
  unfold recordAccess at h
  rcases hfind : assocFind s.map f with _ | e
  · rw [hfind] at h
    by_cases hcap : s.currSize = s.capacity
    · rw [if_pos hcap] at h
      exact Option.noConfusion h
    · rw [if_neg hcap] at h
      simp only [Option.some.injEq] at h
      subst h
      rw [if_pos (by dsimp only; omega)]
      obtain ⟨hg1, hg2, hg3⟩ := hg
      refine ⟨?_, ?_, ?_⟩
      · intro x hx
        rcases mem_insertSorted.mp hx with h1 | h1
        · subst h1
          exact assocFind_set_self g f _
        · have hne : f ≠ x.frameId := by
            intro hfeq
            have hx2 := hs.hmap x h1
            rw [← hfeq] at hx2
            rw [hfind] at hx2
            exact Option.noConfusion hx2
          dsimp only
          rw [assocFind_set_ne g f x.frameId _ hne]
          exact hg1 x h1
      · intro x hx
        have hne : f ≠ x.frameId := by
          intro hfeq
          have hx2 := hs.bmap x hx
          rw [← hfeq] at hx2
          rw [hfind] at hx2
          exact Option.noConfusion hx2
        dsimp only
        rw [assocFind_set_ne g f x.frameId _ hne]
        exact hg2 x hx
      · intro x hx
        have hne : f ≠ x.frameId := by
          intro hfeq
          have hx2 := hs.nmap x hx
          rw [← hfeq] at hx2
          rw [hfind] at hx2
          exact Option.noConfusion hx2
        dsimp only
        rw [assocFind_set_ne g f x.frameId _ hne]
        exact hg3 x hx
  · rw [hfind] at h
    dsimp only at h
    have hfid : e.frameId = f := find_fid hs hfind
    by_cases hlive : e.live s
    case neg =>
      rw [if_neg hlive] at h
      exact Option.noConfusion h
    rw [if_pos hlive] at h
    obtain ⟨hg1, hg2, hg3⟩ := hg
    have hsurvH : ∀ x ∈ s.history, x ≠ e → f ≠ x.frameId := by
      intro x hx hxe hfeq
      have hx2 := hs.hmap x hx
      rw [← hfeq] at hx2
      rw [hfind] at hx2
      exact hxe (by injection hx2; simp_all)
    have hsurvB : ∀ x ∈ s.buffered, x ≠ e → f ≠ x.frameId := by
      intro x hx hxe hfeq
      have hx2 := hs.bmap x hx
      rw [← hfeq] at hx2
      rw [hfind] at hx2
      exact hxe (by injection hx2; simp_all)
    have hsurvN : ∀ x ∈ s.nonEvict, x ≠ e → f ≠ x.frameId := by
      intro x hx hxe hfeq
      have hx2 := hs.nmap x hx
      rw [← hfeq] at hx2
      rw [hfind] at hx2
      exact hxe (by injection hx2; simp_all)
    by_cases hev : e.evictableFlag
    · by_cases hbuf : e.bufferedFlag
      · rcases herase : eraseChecked e s.buffered with _ | l
        · simp [hev, hbuf, herase] at h
        · obtain ⟨hl, hmem⟩ := eraseChecked_eq herase
          subst hl
          have hkhits : s.k ≤ e.timesHit + 1 := le_trans (hs.bhits e hmem) (by omega)
          simp only [hev, hbuf, Bool.not_true, Bool.false_eq_true, if_false, herase,
            Option.bind_eq_bind, Option.some_bind, Option.bind_some, Option.pure_def,
            if_true, if_pos hkhits, Option.some.injEq] at h
          subst h
          rw [if_pos (by dsimp only; omega)]
          refine ⟨?_, ?_, ?_⟩
          · intro x hx
            have hne : f ≠ x.frameId :=
              hsurvH x hx fun hxe => by
                subst hxe
                exact hs.xhb x hx x hmem rfl
            dsimp only
            rw [assocFind_set_ne g f x.frameId _ hne]
            exact hg1 x hx
          · intro x hx
            rcases mem_insertSorted.mp hx with h1 | h1
            · subst h1
              dsimp only
              rw [hfid]
              exact assocFind_set_self g f _
            · have hxb : x ∈ s.buffered := mem_of_mem_erase h1
              have hne : f ≠ x.frameId :=
                hsurvB x hxb fun hxe => by
                  subst hxe
                  exact not_mem_erase_self hs.bsort h1
              dsimp only
              rw [assocFind_set_ne g f x.frameId _ hne]
              exact hg2 x hxb
          · intro x hx
            have hne : f ≠ x.frameId :=
              hsurvN x hx fun hxe => by
                subst hxe
                exact hs.xbn x hmem x hx rfl
            dsimp only
            rw [assocFind_set_ne g f x.frameId _ hne]
            exact hg3 x hx
      · rcases herase : eraseChecked e s.history with _ | l
        · simp [hev, hbuf, herase] at h
        · obtain ⟨hl, hmem⟩ := eraseChecked_eq herase
          subst hl
          by_cases hk : s.k ≤ e.timesHit + 1
          · simp only [hev, hbuf, Bool.not_true, Bool.false_eq_true, if_false, herase,
              Option.bind_eq_bind, Option.some_bind, Option.bind_some, Option.pure_def,
              if_true, if_pos hk, Option.some.injEq] at h
            subst h
            rw [if_pos (by dsimp only; omega)]
            refine ⟨?_, ?_, ?_⟩
            · intro x hx
              have hxh : x ∈ s.history := mem_of_mem_erase hx
              have hne : f ≠ x.frameId :=
                hsurvH x hxh fun hxe => by
                  subst hxe
                  exact not_mem_erase_self hs.hsort hx
              dsimp only
              rw [assocFind_set_ne g f x.frameId _ hne]
              exact hg1 x hxh
            · intro x hx
              rcases mem_insertSorted.mp hx with h1 | h1
              · subst h1
                dsimp only
                rw [hfid]
                exact assocFind_set_self g f _
              · have hne : f ≠ x.frameId :=
                  hsurvB x h1 fun hxe => by
                    subst hxe
                    exact hs.xhb x hmem x h1 rfl
                dsimp only
                rw [assocFind_set_ne g f x.frameId _ hne]
                exact hg2 x h1
            · intro x hx
              have hne : f ≠ x.frameId :=
                hsurvN x hx fun hxe => by
                  subst hxe
                  exact hs.xhn x hmem x hx rfl
              dsimp only
              rw [assocFind_set_ne g f x.frameId _ hne]
              exact hg3 x hx
          · simp only [hev, hbuf, Bool.not_true, Bool.false_eq_true, if_false, herase,
              Option.bind_eq_bind, Option.some_bind, Option.bind_some, Option.pure_def,
              if_true, if_neg hk, Option.some.injEq] at h
            subst h
            rw [if_pos (by dsimp only; omega)]
            refine ⟨?_, ?_, ?_⟩
            · intro x hx
              rcases mem_insertSorted.mp hx with h1 | h1
              · subst h1
                dsimp only
                rw [hfid]
                exact assocFind_set_self g f _
              · have hxh : x ∈ s.history := mem_of_mem_erase h1
                have hne : f ≠ x.frameId :=
                  hsurvH x hxh fun hxe => by
                    subst hxe
                    exact not_mem_erase_self hs.hsort h1
                dsimp only
                rw [assocFind_set_ne g f x.frameId _ hne]
                exact hg1 x hxh
            · intro x hx
              have hne : f ≠ x.frameId :=
                hsurvB x hx fun hxe => by
                  subst hxe
                  exact hs.xhb x hmem x hx rfl
              dsimp only
              rw [assocFind_set_ne g f x.frameId _ hne]
              exact hg2 x hx
            · intro x hx
              have hne : f ≠ x.frameId :=
                hsurvN x hx fun hxe => by
                  subst hxe
                  exact hs.xhn x hmem x hx rfl
              dsimp only
              rw [assocFind_set_ne g f x.frameId _ hne]
              exact hg3 x hx
    · rcases herase : eraseChecked e s.nonEvict with _ | l
      · simp [hev, herase] at h
      · obtain ⟨hl, hmem⟩ := eraseChecked_eq herase
        subst hl
        simp only [hev, Bool.not_false, if_true, herase, Option.bind_eq_bind,
          Option.some_bind, Option.bind_some, Option.pure_def, Option.some.injEq] at h
        subst h
        rw [if_pos (by dsimp only; omega)]
        refine ⟨?_, ?_, ?_⟩
        · intro x hx
          have hne : f ≠ x.frameId :=
            hsurvH x hx fun hxe => by
              subst hxe
              exact hs.xhn x hx x hmem rfl
          dsimp only
          rw [assocFind_set_ne g f x.frameId _ hne]
          exact hg1 x hx
        · intro x hx
          have hne : f ≠ x.frameId :=
            hsurvB x hx fun hxe => by
              subst hxe
              exact hs.xbn x hx x hmem rfl
          dsimp only
          rw [assocFind_set_ne g f x.frameId _ hne]
          exact hg2 x hx
        · intro x hx
          rcases mem_insertSorted.mp hx with h1 | h1
          · subst h1
            dsimp only
            rw [hfid]
            exact assocFind_set_self g f _
          · have hxn : x ∈ s.nonEvict := mem_of_mem_erase h1
            have hne : f ≠ x.frameId :=
              hsurvN x hxn fun hxe => by
                subst hxe
                exact not_mem_erase_self hs.nsort h1
            dsimp only
            rw [assocFind_set_ne g f x.frameId _ hne]
            exact hg3 x hxn

theorem setEvictable_ghost {s s' : RState} {g : Ghost} {f : Nat} {flag : Bool}
    (hs : RInvP s) (hg : HGInv s g) (h : setEvictable f flag s = some s') :
    HGInv s' g := by
  unfold setEvictable at h
  rcases hfind : assocFind s.map f with _ | e
  · rw [hfind] at h
    dsimp only at h
    simp only [Option.some.injEq] at h
    subst h
    exact hg
  · rw [hfind] at h
    dsimp only at h
    have hfid : e.frameId = f := find_fid hs hfind
    by_cases hlive : e.live s
    case neg =>
      rw [if_neg hlive] at h
      exact Option.noConfusion h
    rw [if_pos hlive] at h
    obtain ⟨hg1, hg2, hg3⟩ := hg
    by_cases hb1 : (!e.evictableFlag && flag) = true
    · rw [if_pos hb1] at h
      rcases herase : eraseChecked e s.nonEvict with _ | l
      · simp [herase] at h
      · obtain ⟨hl, hmem⟩ := eraseChecked_eq herase
        subst hl
        simp only [herase, Option.bind_eq_bind, Option.some_bind] at h
        have hge : assocFind g e.frameId = some e.timestamp := hg3 e hmem
        have hg1' : HGInv { s with nonEvict := s.nonEvict.erase e } g :=
          ⟨hg1, hg2, fun x hx => hg3 x (mem_of_mem_erase hx)⟩
        by_cases hcap : s.currSize = s.capacity
        · rw [if_pos hcap] at h
          simp at h
        · rw [if_neg hcap] at h
          by_cases hk : s.k ≤ e.timesHit
          · rw [if_pos hk] at h
            simp only [Option.some.injEq] at h
            subst h
            refine ⟨hg1, ?_, fun x hx => hg3 x (mem_of_mem_erase hx)⟩
            intro x hx
            rcases mem_insertSorted.mp hx with h1 | h1
            · subst h1
              exact hge
            · exact hg2 x h1
          · rw [if_neg hk] at h
            simp only [Option.some.injEq] at h
            subst h
            refine ⟨?_, hg2, fun x hx => hg3 x (mem_of_mem_erase hx)⟩
            intro x hx
            rcases mem_insertSorted.mp hx with h1 | h1
            · subst h1
              exact hge
            · exact hg1 x h1
    · rw [if_neg hb1] at h
      by_cases hb2 : (e.bufferedFlag && !flag) = true
      · rw [if_pos hb2] at h
        rcases herase : eraseChecked e s.buffered with _ | l
        · simp [herase] at h
        · obtain ⟨hl, hmem⟩ := eraseChecked_eq herase
          subst hl
          simp only [herase, Option.bind_eq_bind, Option.some_bind,
            Option.some.injEq] at h
          subst h
          refine ⟨hg1, fun x hx => hg2 x (mem_of_mem_erase hx), ?_⟩
          intro x hx
          rcases mem_insertSorted.mp hx with h1 | h1
          · subst h1
            exact hg2 e hmem
          · exact hg3 x h1
      · rw [if_neg hb2] at h
        by_cases hb3 : (e.evictableFlag && !flag) = true
        · rw [if_pos hb3] at h
          rcases herase : eraseChecked e s.history with _ | l
          · simp [herase] at h
          · obtain ⟨hl, hmem⟩ := eraseChecked_eq herase
            subst hl
            simp only [herase, Option.bind_eq_bind, Option.some_bind,
              Option.some.injEq] at h
            subst h
            refine ⟨fun x hx => hg1 x (mem_of_mem_erase hx), hg2, ?_⟩
            intro x hx
            rcases mem_insertSorted.mp hx with h1 | h1
            · subst h1
              exact hg1 e hmem
            · exact hg3 x h1
        · rw [if_neg hb3] at h
          simp only [Option.some.injEq] at h
          subst h
          exact ⟨hg1, hg2, hg3⟩

theorem removeR_ghost {s s' : RState} {g : Ghost} {f : Nat}
    (hg : HGInv s g) (h : removeR f s = some s') : HGInv s' g := by
  unfold removeR at h
  rcases hfind : assocFind s.map f with _ | e
  · rw [hfind] at h
    dsimp only at h
    simp only [Option.some.injEq] at h
    subst h
    exact hg
  · rw [hfind] at h
    dsimp only at h
    obtain ⟨hg1, hg2, hg3⟩ := hg
    by_cases hlive : e.live s
    case neg =>
      rw [if_neg hlive] at h
      exact Option.noConfusion h
    rw [if_pos hlive] at h
    by_cases hev : e.evictableFlag
    case neg =>
      rw [if_neg hev] at h
      exact Option.noConfusion h
    rw [if_pos hev] at h
    by_cases hbuf : e.bufferedFlag
    · rw [if_pos hbuf] at h
      rcases herase : eraseChecked e s.buffered with _ | l
      · simp [herase] at h
      · obtain ⟨hl, hmem⟩ := eraseChecked_eq herase
        subst hl
        simp only [herase, Option.bind_eq_bind, Option.some_bind, Option.some.injEq] at h
        subst h
        exact ⟨hg1, fun x hx => hg2 x (mem_of_mem_erase hx), hg3⟩
    · rw [if_neg hbuf] at h
      rcases herase : eraseChecked e s.history with _ | l
      · simp [herase] at h
      · obtain ⟨hl, hmem⟩ := eraseChecked_eq herase
        subst hl
        simp only [herase, Option.bind_eq_bind, Option.some_bind, Option.some.injEq] at h
        subst h
        exact ⟨fun x hx => hg1 x (mem_of_mem_erase hx), hg2, hg3⟩

theorem stepRG_pres {p p' : RState × Ghost} {op : ROp}
    (hr : RInvP p.1) (hg : HGInv p.1 p.2) (h : stepRG p op = some p') :
    RInvP p'.1 ∧ HGInv p'.1 p'.2 ∧ p'.1.k = p.1.k ∧ p'.1.capacity = p.1.capacity := by
  rcases p with ⟨s, g⟩
  cases op with
  | ra f =>
    simp only [stepRG] at h
    rcases hra : recordAccess f s with _ | s2
    · rw [hra] at h
      simp at h
    · rw [hra, Option.map_some'] at h
      simp only [Option.some.injEq] at h
      subst h
      have h1 := recordAccess_pres hr hra
      have h2 := recordAccess_ghost hr hg hra
      exact ⟨h1.1, h2, h1.2.1, h1.2.2⟩
  | setEv f b =>
    simp only [stepRG] at h
    rcases hse : setEvictable f b s with _ | s2
    · rw [hse] at h
      simp at h
    · rw [hse, Option.map_some'] at h
      simp only [Option.some.injEq] at h
      subst h
      have h1 := setEvictable_pres hr hse
      have h2 := setEvictable_ghost hr hg hse
      exact ⟨h1.1, h2, h1.2.1, h1.2.2⟩
  | rm f =>
    simp only [stepRG] at h
    rcases hrm : removeR f s with _ | s2
    · rw [hrm] at h
      simp at h
    · rw [hrm, Option.map_some'] at h
      simp only [Option.some.injEq] at h
      subst h
      have h1 := removeR_pres hr hrm
      have h2 := removeR_ghost hg hrm
      exact ⟨h1.1, h2, h1.2.1, h1.2.2⟩
  | ev =>
    simp only [stepRG, Option.some.injEq] at h
    subst h
    have h1 := evict_pres hr
    exact ⟨h1.1, evict_ghost hg, h1.2.1, h1.2.2.1⟩

theorem foldRG_inv : ∀ (ops : List ROp) (p p' : RState × Ghost),
    RInvP p.1 → HGInv p.1 p.2 → List.foldlM stepRG p ops = some p' →
    RInvP p'.1 ∧ HGInv p'.1 p'.2 ∧ p'.1.k = p.1.k ∧ p'.1.capacity = p.1.capacity := by
  intro ops
  induction ops with
  | nil =>
    intro p p' h1 h2 h
    simp only [List.foldlM_nil, pure, Option.some.injEq] at h
    subst h
    exact ⟨h1, h2, rfl, rfl⟩
  | cons op t ih =>
    intro p p' h1 h2 h
    rw [List.foldlM_cons] at h
    rcases hstep : stepRG p op with _ | q
    · rw [hstep] at h
      simp at h
    · rw [hstep] at h
      simp only [Option.bind_eq_bind, Option.some_bind] at h
      have hq := stepRG_pres h1 h2 hstep
      have ht := ih q p' hq.1 hq.2.1 h
      exact ⟨ht.1, ht.2.1, by rw [ht.2.2.1, hq.2.2.1], by rw [ht.2.2.2, hq.2.2.2]⟩

theorem runRG_inv (cap k : Nat) (ops : List ROp) (s : RState) (g : Ghost)
    (h : runRG cap k ops = some (s, g)) :
    RInvP s ∧ HGInv s g ∧ s.k = k ∧ s.capacity = cap :=
  foldRG_inv ops (initR cap k, []) (s, g) (RInvP_init cap k) (HGInv_init cap k) h

/-- Claim C5 amended: over every `record_access` / `set_evictable` /
`remove` / `evict` call sequence (with `K ≥ 2`), the frames in
`history_list_` are exactly eviction candidates with fewer than K
recorded accesses and those in `buffered_list_` have at least K, so any
frame with fewer than K accesses is evicted before any frame with K or
more; and among the fewer-than-K frames, `evict` returns the one whose
*most recent* access is earliest — the ghost map ties each entry's
timestamp to the stamp of that frame's most recent `record_access` —
not the one whose first access is earliest. -/
theorem lruk_evict_order (cap k : Nat) (ops : List ROp) (s : RState) (g : Ghost)
    (hrun : runRG cap k ops = some (s, g)) (hk : 2 ≤ k) :
    (∀ e ∈ s.history, e.timesHit < k) ∧
    (∀ e ∈ s.buffered, k ≤ e.timesHit) ∧
    (∀ e ∈ s.history, assocFind g e.frameId = some e.timestamp) ∧
    (∀ e ∈ s.buffered, assocFind g e.frameId = some e.timestamp) ∧
    (∀ e, s.history.head? = some e →
      (evict s).1 = some e.frameId ∧ ∀ x ∈ s.history, e.timestamp ≤ x.timestamp) ∧
    (s.history = [] → ∀ e, s.buffered.head? = some e →
      (evict s).1 = some e.frameId ∧ ∀ x ∈ s.buffered, e.timestamp ≤ x.timestamp) := by
  obtain ⟨hr, hg, hkk, _⟩ := runRG_inv cap k ops s g hrun
  refine ⟨?_, ?_, hg.1, hg.2.1, ?_, ?_⟩
  · intro e he
    rcases hr.hhits e he with h1 | h1
    · omega
    · omega
  · intro e he
    rw [← hkk]
    exact hr.bhits e he
  · intro e he
    rcases hh : s.history with _ | ⟨e0, t⟩
    · rw [hh] at he
      exact Option.noConfusion he
    · rw [hh] at he
      simp only [List.head?_cons, Option.some.injEq] at he
      subst he
      constructor
      · simp [evict, hh]
      · intro x hx
        have := hr.hsort
        rw [hh] at this
        exact pairwise_head_min this x hx
  · intro hh0 e he
    rcases hb : s.buffered with _ | ⟨e0, t⟩
    · rw [hb] at he
      exact Option.noConfusion he
    · rw [hb] at he
      simp only [List.head?_cons, Option.some.injEq] at he
      subst he
      constructor
      · simp [evict, hh0, hb]
      · intro x hx
        have := hr.bsort
        rw [hb] at this
        exact pairwise_head_min this x hx

/-- The state reached by `c5Ops` on a K = 3 replacer of capacity 7. -/
def c5S : RState :=
  ⟨3, 7, 3, 2,
   [⟨2, 2, 1, true, false⟩, ⟨3, 1, 2, true, false⟩], [], [],
   [(1, ⟨3, 1, 2, true, false⟩), (2, ⟨2, 2, 1, true, false⟩)]⟩

/-- The ghost last-stamp map matching `c5S`. -/
def c5G : Ghost := [(1, 3), (2, 2)]

/-- Witness for the amended claim C5 at the concrete run `c5Ops`:
history holds frames 2 and 1 (both under K = 3 hits), and `evict`
returns frame 2, the history head with the minimal last-access stamp. -/
theorem lruk_evict_order_witness :
    (∀ e ∈ c5S.history, e.timesHit < 3) ∧
    (∀ e ∈ c5S.buffered, 3 ≤ e.timesHit) ∧
    (∀ e ∈ c5S.history, assocFind c5G e.frameId = some e.timestamp) ∧
    (∀ e ∈ c5S.buffered, assocFind c5G e.frameId = some e.timestamp) ∧
    (∀ e, c5S.history.head? = some e →
      (evict c5S).1 = some e.frameId ∧ ∀ x ∈ c5S.history, e.timestamp ≤ x.timestamp) ∧
    (c5S.history = [] → ∀ e, c5S.buffered.head? = some e →
      (evict c5S).1 = some e.frameId ∧ ∀ x ∈ c5S.buffered, e.timestamp ≤ x.timestamp) :=
  lruk_evict_order 7 3 c5Ops c5S c5G rfl (by omega)

/-! ### Claim C10: record_access of an untracked frame at capacity -/

/-- A replacer at capacity: capacity 1, K = 2, frame 1 tracked and
evictable (`curr_size_ = 1 = replacer_size_`); frame 2 is untracked. -/
def c10S : RState :=
  ⟨2, 1, 1, 1, [⟨1, 1, 1, true, false⟩], [], [], [(1, ⟨1, 1, 1, true, false⟩)]⟩

/-- Claim C10 is false in the code: `RecordAccess` holds the
non-recursive `common_latch_` from its entry, and its
untracked-at-capacity branch runs `BUSTUB_ASSERT(Evict(&id), true)` —
but `Evict` re-locks that same mutex, so with assertions active the call
self-deadlocks (undefined behaviour, `none`) instead of evicting the
victim and returning with `f` unregistered; under `NDEBUG` the assert's
expression is never evaluated, so no victim is evicted either.  In no
build does the code evict-and-return as the claim describes.  Here
frame 2 is untracked, the replacer is at capacity, and the call does
not complete. -/
theorem claim_c10_code_bug :
    assocFind c10S.map 2 = none ∧
    sizeR c10S = c10S.capacity ∧
    recordAccess 2 c10S = none :=
  ⟨rfl, rfl, rfl⟩

end LRUK

/-! ## Extendible hash table (`extendible_hash_table.cpp`)

`dir_` holds `shared_ptr<Bucket>`; pointer identity matters for the
split's redistribution loop, so buckets live in an arena `store` and the
directory holds arena indices — two directory slots alias exactly when
they hold the same index.  The constructor leaves the directory *empty*
(`Insert` seeds it lazily); `Find` indexes `dir_[IndexOf(key)]` without
the emptiness guard that `Remove` has, so on an empty directory it
performs an out-of-bounds `std::vector` read, modelled as `none`.
`InernalInsert` recursion is modelled with a worklist processed
depth-first (exactly the C++ recursion order) and step fuel; `none`
also covers the non-terminating executions cut off by fuel. -/

namespace EHT

open Util

variable {K V : Type} [DecidableEq K]

/-- A bucket: items in insertion order, capacity `size_`, local depth. -/
structure HBucket (K V : Type) where
  items : List (K × V)
  cap : Nat
  depth : Nat
deriving DecidableEq, Repr

/-- The overwrite scan of `Bucket::Insert`: assign the first pair with a
matching key, or report no match. -/
def bOverwrite : List (K × V) → K → V → Option (List (K × V))
  | [], _, _ => none
  | (k', v') :: t, k, v =>
    if k' = k then some ((k', v) :: t) else (bOverwrite t k v).map ((k', v') :: ·)

/-- The scan of `Bucket::Find`: value of the first matching pair. -/
def bFind : List (K × V) → K → Option V
  | [], _ => none
  | (k', v) :: t, k => if k' = k then some v else bFind t k

/-- The scan of `Bucket::Remove`: erase the first matching pair. -/
def bRemoveList : List (K × V) → K → Bool × List (K × V)
  | [], _ => (false, [])
  | (k', v) :: t, k =>
    if k' = k then (true, t)
    else
      let r := bRemoveList t k
      (r.1, (k', v) :: r.2)

/-- `Bucket::Insert`: overwrite in place on a key match; otherwise
append unless the bucket is full (`IsFull`: item count equals
capacity), in which case report failure (`none`). -/
def HBucket.insertB (b : HBucket K V) (k : K) (v : V) : Option (HBucket K V) :=
  match bOverwrite b.items k v with
  | some l => some { b with items := l }
  | none =>
    if b.items.length = b.cap then none
    else some { b with items := b.items ++ [(k, v)] }

/-- `ExtendibleHashTable` state: `global_depth_`, `bucket_size_`,
`num_buckets_`, the bucket arena and the directory of arena indices. -/
structure HTS (K V : Type) where
  globalDepth : Nat
  bucketSize : Nat
  numBuckets : Nat
  store : List (HBucket K V)
  dir : List Nat
deriving DecidableEq, Repr

/-- The constructor: `global_depth_ = 0`, `num_buckets_ = 1`, and an
*empty* directory. -/
def htInit (bs : Nat) : HTS K V := ⟨0, bs, 1, [], []⟩

/-- `IndexOf`: `hash(key) & ((1 << global_depth_) - 1)`. -/
def indexOf (hash : K → Nat) (g : Nat) (k : K) : Nat :=
  Nat.land (hash k) (2 ^ g - 1)

/-- `Find`: reads `dir_[IndexOf(key)]` with no emptiness check; an
out-of-bounds directory (or arena) access is `none`, a completed lookup
is `some` of the bucket scan's result. -/
def htFind (hash : K → Nat) (s : HTS K V) (k : K) : Option (Option V) :=
  match s.dir[indexOf hash s.globalDepth k]? with
  | none => none
  | some bid =>
    match s.store[bid]? with
    | none => none
    | some b => some (bFind b.items k)

/-- `Remove`: returns false on an empty directory, otherwise erases the
first match in the indexed bucket. -/
def htRemove (hash : K → Nat) (s : HTS K V) (k : K) : Option (Bool × HTS K V) :=
  if s.dir.isEmpty then some (false, s)
  else
    match s.dir[indexOf hash s.globalDepth k]? with
    | none => none
    | some bid =>
      match s.store[bid]? with
      | none => none
      | some b =>
        let r := bRemoveList b.items k
        some (r.1, { s with store := s.store.set bid { b with items := r.2 } })

/-- The lazy seeding at the top of `Insert`/`InernalInsert`: an empty
directory gets one fresh empty bucket. -/
def seedIfEmpty (s : HTS K V) : HTS K V :=
  if s.dir.isEmpty then
    { s with store := s.store ++ [⟨[], s.bucketSize, 0⟩], dir := [s.store.length] }
  else s

/-- The split's redistribution loop: every slot holding the full bucket
is reassigned to one of the two fresh buckets according to bit `d - 1`
of the slot index. -/
def redirect (dir : List Nat) (target n1 n2 d : Nat) : List Nat :=
  (List.range dir.length).map fun i =>
    if dir.getD i 0 = target then
      (if Nat.land i (2 ^ (d - 1)) ≠ 0 then n1 else n2)
    else dir.getD i 0

/-- The directory doubling of a split when the local depth has reached
the global depth: `global_depth_++`, `num_buckets_ *= 2`, `dir_`
appended to itself. -/
def doubleDir (s : HTS K V) : HTS K V :=
  { s with globalDepth := s.globalDepth + 1, numBuckets := s.numBuckets * 2,
           dir := s.dir ++ s.dir }

/-- The tail of the split: bump the full bucket's local depth to `d`,
append the two fresh buckets and redistribute the aliased directory
slots. -/
def splitTail (s1 : HTS K V) (bid : Nat) (b : HBucket K V) (d : Nat) : HTS K V :=
  let s2 := { s1 with store := s1.store.set bid { b with depth := d } }
  let n1 := s2.store.length
  let n2 := s2.store.length + 1
  let s3 := { s2 with store :=
    s2.store ++ [(⟨[], s2.bucketSize, d⟩ : HBucket K V), ⟨[], s2.bucketSize, d⟩] }
  { s3 with dir := redirect s3.dir bid n1 n2 d }

/-- The full-bucket step: double the directory when the local depth has
reached the global depth, then split. -/
def splitStep (s0 : HTS K V) (bid : Nat) (b : HBucket K V) : HTS K V :=
  let s1 := if b.depth = s0.globalDepth then doubleDir s0 else s0
  splitTail s1 bid b (b.depth + 1)

/-- The body shared by `Insert` and `InernalInsert`, processing a
worklist depth-first: seed an empty directory, try the indexed bucket;
on a full bucket double the directory when the local depth equals the
global depth, bump the local depth, allocate the two fresh buckets,
redistribute the aliased slots, and queue the old bucket's items in
front of the pending work — exactly the C++ recursion order.  `fuel`
bounds the number of processed steps. -/
def htInsertAux (hash : K → Nat) : Nat → List (K × V) → HTS K V → Option (HTS K V)
  | 0, _, _ => none
  | _ + 1, [], s => some s
  | fuel + 1, (k, v) :: pending, s =>
    let s0 := seedIfEmpty s
    let idx := indexOf hash s0.globalDepth k
    match s0.dir[idx]? with
    | none => none
    | some bid =>
      match s0.store[bid]? with
      | none => none
      | some b =>
        match b.insertB k v with
        | some b' => htInsertAux hash fuel pending { s0 with store := s0.store.set bid b' }
        | none => htInsertAux hash fuel (b.items ++ (k, v) :: pending) (splitStep s0 bid b)

/-- `Insert(key, value)`. -/
def htInsert (hash : K → Nat) (fuel : Nat) (s : HTS K V) (k : K) (v : V) :
    Option (HTS K V) :=
  htInsertAux hash fuel [(k, v)] s

/-- Claim C9: on a freshly constructed table, `Remove` takes its
empty-directory guard and returns false, but `Find` has no such guard:
it reads `dir_[0]` of an empty `std::vector` — an out-of-bounds access
(`none`) where the claim requires an in-bounds read returning false. -/
theorem claim_c9_code_bug :
    ∀ k : Nat, htFind (fun x => x) (htInit 2 : HTS Nat Nat) k = none ∧
      htRemove (fun x => x) (htInit 2 : HTS Nat Nat) k = some (false, htInit 2) := by
  intro k
  constructor
  · simp [htFind, htInit]
  · simp [htRemove, htInit]

/-! ### Bucket-level lemmas -/

theorem bFind_none_iff {l : List (K × V)} {k : K} :
    bFind l k = none ↔ ∀ p ∈ l, p.1 ≠ k := by
  induction l with
  | nil => simp [bFind]
  | cons p t ih =>
    rcases p with ⟨k', v⟩
    by_cases hk : k' = k
    · simp [bFind, hk]
    · simp [bFind, hk, ih]

theorem bFind_mem_nodup {l : List (K × V)} {k : K} {v : V}
    (hnd : (l.map Prod.fst).Nodup) (hmem : (k, v) ∈ l) : bFind l k = some v := by
  induction l with
  | nil => simp at hmem
  | cons p t ih =>
    rcases p with ⟨k', v'⟩
    rcases List.mem_cons.mp hmem with h1 | h1
    · injection h1 with hk2 hv2
      subst hk2
      subst hv2
      simp [bFind]
    · have hk : k' ≠ k := by
        intro hq
        subst hq
        simp only [List.map_cons, List.nodup_cons] at hnd
        exact hnd.1 (List.mem_map.mpr ⟨(k', v), h1, rfl⟩)
      simp only [bFind, hk, if_false]
      exact ih (by simp only [List.map_cons, List.nodup_cons] at hnd; exact hnd.2) h1

theorem bOverwrite_none_iff {l : List (K × V)} {k : K} {v : V} :
    bOverwrite l k v = none ↔ ∀ p ∈ l, p.1 ≠ k := by
  induction l with
  | nil => simp [bOverwrite]
  | cons p t ih =>
    rcases p with ⟨k', v'⟩
    by_cases hk : k' = k
    · simp [bOverwrite, hk]
    · simp [bOverwrite, hk, ih]

theorem bOverwrite_some {l l' : List (K × V)} {k : K} {v : V}
    (h : bOverwrite l k v = some l') :
    l'.map Prod.fst = l.map Prod.fst ∧
    bFind l' k = some v ∧
    (∀ k', k' ≠ k → bFind l' k' = bFind l k') ∧
    (∀ p ∈ l', p.1 = k ∧ p.2 = v ∨ p ∈ l) := by
  induction l generalizing l' with
  | nil => simp [bOverwrite] at h
  | cons p t ih =>
    rcases p with ⟨k', v'⟩
    by_cases hk : k' = k
    · subst hk
      simp only [bOverwrite, if_pos rfl, if_true, eq_self_iff_true, Option.some.injEq] at h
      subst h
      refine ⟨by simp, by simp [bFind], ?_, ?_⟩
      · intro k0 hk0
        have hne : ¬ k' = k0 := fun hq => hk0 hq.symm
        simp [bFind, hne]
      · intro p hp
        rcases List.mem_cons.mp hp with h1 | h1
        · subst h1
          exact Or.inl ⟨rfl, rfl⟩
        · exact Or.inr (List.mem_cons_of_mem _ h1)
    · simp only [bOverwrite, hk, if_false] at h
      rcases ht : bOverwrite t k v with _ | t'
      · rw [ht] at h
        simp at h
      · rw [ht] at h
        simp only [Option.map_some', Option.some.injEq] at h
        subst h
        obtain ⟨ih1, ih2, ih3, ih4⟩ := ih ht
        refine ⟨by simp [ih1], by simp [bFind, hk, ih2], ?_, ?_⟩
        · intro k0 hk0
          by_cases hq : k' = k0
          · simp [bFind, hq]
          · simp [bFind, hq, ih3 k0 hk0]
        · intro p hp
          rcases List.mem_cons.mp hp with h1 | h1
          · subst h1
            exact Or.inr (List.mem_cons_self _ _)
          · rcases ih4 p h1 with h2 | h2
            · exact Or.inl h2
            · exact Or.inr (List.mem_cons_of_mem _ h2)

theorem bFind_append_self {l : List (K × V)} {k : K} {v : V}
    (h : bFind l k = none) : bFind (l ++ [(k, v)]) k = some v := by
  induction l with
  | nil => simp [bFind]
  | cons p t ih =>
    rcases p with ⟨k', v'⟩
    by_cases hk : k' = k
    · simp [bFind, hk] at h
    · simp only [bFind, hk, if_false] at h
      simp [bFind, hk, ih h]

theorem bFind_append_ne {l : List (K × V)} {k k' : K} {v : V} (h : k' ≠ k) :
    bFind (l ++ [(k, v)]) k' = bFind l k' := by
  induction l with
  | nil => simp only [List.nil_append, bFind, if_neg (fun hq : k = k' => h hq.symm)]
  | cons p t ih =>
    rcases p with ⟨k0, v0⟩
    by_cases hk : k0 = k'
    · simp [bFind, hk]
    · simp [bFind, hk, ih]

theorem bRemoveList_sublist (l : List (K × V)) (k : K) :
    (bRemoveList l k).2.Sublist l := by
  induction l with
  | nil => simp [bRemoveList]
  | cons p t ih =>
    rcases p with ⟨k', v⟩
    by_cases hk : k' = k
    · simp only [bRemoveList, hk, if_pos]
      exact List.sublist_cons_self _ _
    · simp only [bRemoveList, hk, if_false]
      exact ih.cons₂ _

theorem bRemoveList_find_self {l : List (K × V)} {k : K}
    (hnd : (l.map Prod.fst).Nodup) : bFind (bRemoveList l k).2 k = none := by
  induction l with
  | nil => simp [bRemoveList, bFind]
  | cons p t ih =>
    rcases p with ⟨k', v⟩
    simp only [List.map_cons, List.nodup_cons] at hnd
    by_cases hk : k' = k
    · simp only [bRemoveList, hk, if_pos]
      rw [bFind_none_iff]
      intro p hp hpk
      subst hk
      exact hnd.1 (List.mem_map.mpr ⟨p, hp, hpk⟩)
    · simp only [bRemoveList, hk, if_false]
      simp [bFind, hk, ih hnd.2]

theorem bRemoveList_find_ne {l : List (K × V)} {k k' : K} (h : k' ≠ k) :
    bFind (bRemoveList l k).2 k' = bFind l k' := by
  induction l with
  | nil => simp [bRemoveList]
  | cons p t ih =>
    rcases p with ⟨k0, v⟩
    by_cases hk : k0 = k
    · subst hk
      have hne : ¬ k0 = k' := fun hq => h hq.symm
      simp only [bRemoveList, if_pos rfl, if_true, eq_self_iff_true, bFind, if_neg hne]
    · simp only [bRemoveList, if_neg hk, bFind]
      by_cases hk2 : k0 = k'
      · simp [hk2]
      · simp [hk2, ih]

theorem bRemoveList_flag {l : List (K × V)} {k : K} :
    (bRemoveList l k).1 = (bFind l k).isSome := by
  induction l with
  | nil => simp [bRemoveList, bFind]
  | cons p t ih =>
    rcases p with ⟨k', v⟩
    by_cases hk : k' = k
    · simp [bRemoveList, bFind, hk]
    · simp [bRemoveList, bFind, hk, ih]

/-! ### The abstract map and its update -/

/-- Pointwise update of an abstract partial map by a pair list, later
pairs overriding earlier ones. -/
def updMap (f : K → Option V) (l : List (K × V)) : K → Option V :=
  l.foldl (fun g kv k' => if k' = kv.1 then some kv.2 else g k') f

theorem updMap_append (f : K → Option V) (l1 l2 : List (K × V)) :
    updMap f (l1 ++ l2) = updMap (updMap f l1) l2 := by
  simp [updMap, List.foldl_append]

theorem updMap_not_mem {f : K → Option V} {l : List (K × V)} {k' : K}
    (h : ∀ p ∈ l, p.1 ≠ k') : updMap f l k' = f k' := by
  induction l generalizing f with
  | nil => rfl
  | cons p t ih =>
    have hp : p.1 ≠ k' := h p (List.mem_cons_self p t)
    have : updMap f (p :: t) = updMap (fun k0 => if k0 = p.1 then some p.2 else f k0) t := rfl
    rw [this, ih fun q hq => h q (List.mem_cons_of_mem p hq)]
    exact if_neg (fun hq : k' = p.1 => hp hq.symm)

theorem updMap_mem_nodup {f : K → Option V} {l : List (K × V)} {k' : K} {v' : V}
    (hnd : (l.map Prod.fst).Nodup) (hmem : (k', v') ∈ l) : updMap f l k' = some v' := by
  induction l generalizing f with
  | nil => simp at hmem
  | cons p t ih =>
    simp only [List.map_cons, List.nodup_cons] at hnd
    have hstep : updMap f (p :: t) = updMap (fun k0 => if k0 = p.1 then some p.2 else f k0) t := rfl
    rcases List.mem_cons.mp hmem with h1 | h1
    · have hk : p.1 = k' := by rw [← h1]
      have hv : p.2 = v' := by rw [← h1]
      rw [hstep, updMap_not_mem]
      · simp [hk, hv]
      · intro q hq hqk
        exact hnd.1 (List.mem_map.mpr ⟨q, hq, by rw [hqk, hk]⟩)
    · rw [hstep]
      exact ih hnd.2 h1

/-! ### Index arithmetic -/

theorem land_mask (x n : Nat) : Nat.land x (2 ^ n - 1) = x % 2 ^ n := by
  show x &&& (2 ^ n - 1) = x % 2 ^ n
  apply Nat.eq_of_testBit_eq
  intro i
  simp [Nat.testBit_land, Nat.testBit_mod_two_pow, Nat.testBit_two_pow_sub_one, Bool.and_comm]

omit [DecidableEq K] in
theorem indexOf_lt (hash : K → Nat) (g : Nat) (k : K) : indexOf hash g k < 2 ^ g := by
  rw [indexOf, land_mask]
  exact Nat.mod_lt _ (Nat.two_pow_pos g)

omit [DecidableEq K] in
theorem indexOf_double (hash : K → Nat) (g : Nat) (k : K) :
    indexOf hash (g + 1) k % 2 ^ g = indexOf hash g k := by
  rw [indexOf, indexOf, land_mask, land_mask, pow_succ]
  exact Nat.mod_mod_of_dvd _ ⟨2, rfl⟩

theorem getElem?_append_double {dir : List Nat} {g : Nat} (hlen : dir.length = 2 ^ g)
    {j : Nat} (hj : j < 2 ^ (g + 1)) :
    (dir ++ dir)[j]? = dir[j % 2 ^ g]? := by
  by_cases h : j < 2 ^ g
  · rw [List.getElem?_append_left (by omega : j < dir.length), Nat.mod_eq_of_lt h]
  · have h1 : j - 2 ^ g < 2 ^ g := by
      rw [pow_succ] at hj
      omega
    rw [List.getElem?_append_right (by omega : dir.length ≤ j)]
    have h2 : j % 2 ^ g = j - 2 ^ g := by
      rw [Nat.mod_eq_sub_mod (by omega), Nat.mod_eq_of_lt h1]
    rw [hlen, h2]

/-! ### Redirect lemmas -/

theorem redirect_length (dir : List Nat) (t n1 n2 d : Nat) :
    (redirect dir t n1 n2 d).length = dir.length := by
  simp [redirect]

theorem redirect_getElem (dir : List Nat) (t n1 n2 d : Nat) {j : Nat} (hj : j < dir.length) :
    (redirect dir t n1 n2 d)[j]? =
      some (if dir.getD j 0 = t then (if Nat.land j (2 ^ (d - 1)) ≠ 0 then n1 else n2)
            else dir.getD j 0) := by
  rw [redirect, List.getElem?_map]
  simp [List.getElem?_range, hj]

theorem mem_redirect {dir : List Nat} {t n1 n2 d x : Nat} (hx : x ∈ redirect dir t n1 n2 d) :
    x = n1 ∨ x = n2 ∨ (x ∈ dir ∧ x ≠ t) := by
  simp only [redirect, List.mem_map, List.mem_range] at hx
  obtain ⟨j, hj, hxe⟩ := hx
  by_cases hc : dir.getD j 0 = t
  · rw [if_pos hc] at hxe
    by_cases hb : Nat.land j (2 ^ (d - 1)) ≠ 0
    · rw [if_pos hb] at hxe
      exact Or.inl hxe.symm
    · rw [if_neg hb] at hxe
      exact Or.inr (Or.inl hxe.symm)
  · rw [if_neg hc] at hxe
    refine Or.inr (Or.inr ⟨?_, ?_⟩)
    · rw [← hxe, List.getD_eq_getElem dir 0 hj]
      exact List.getElem_mem hj
    · rw [← hxe]
      exact hc

theorem getD_of_getElem? {l : List Nat} {j bid : Nat} (h : l[j]? = some bid) :
    l.getD j 0 = bid := by
  rw [List.getD_eq_getElem?_getD, h]
  rfl

/-! ### The table invariant and its abstract view -/

/-- The structural invariant of a seeded table: the directory has
`2 ^ global_depth_` slots, every slot points into the arena, every key
stored in a referenced bucket hashes (masked) to a slot holding exactly
that bucket, and no referenced bucket holds a key twice. -/
def INVn (hash : K → Nat) (s : HTS K V) : Prop :=
  s.dir.length = 2 ^ s.globalDepth ∧
  (∀ bid ∈ s.dir, bid < s.store.length) ∧
  (∀ bid ∈ s.dir, ∀ b : HBucket K V, s.store[bid]? = some b →
    ∀ k0 ∈ b.items.map Prod.fst, s.dir[indexOf hash s.globalDepth k0]? = some bid) ∧
  (∀ bid ∈ s.dir, ∀ b : HBucket K V, s.store[bid]? = some b → (b.items.map Prod.fst).Nodup)

/-- The invariant including the freshly constructed (empty-directory)
state. -/
def INV (hash : K → Nat) (s : HTS K V) : Prop :=
  (s.dir = [] ∧ s.globalDepth = 0) ∨ INVn hash s

/-- The abstract partial map a table state represents: the scan of the
bucket the key's masked hash points to. -/
def absL (hash : K → Nat) (s : HTS K V) (k : K) : Option V :=
  (s.dir[indexOf hash s.globalDepth k]?).bind fun bid =>
    (s.store[bid]?).bind fun b => bFind b.items k

theorem absL_eq (hash : K → Nat) {s : HTS K V} {k : K} {bid : Nat} {b : HBucket K V}
    (h1 : s.dir[indexOf hash s.globalDepth k]? = some bid)
    (h2 : s.store[bid]? = some b) : absL hash s k = bFind b.items k := by
  rw [absL, h1, Option.some_bind, h2, Option.some_bind]

omit [DecidableEq K] in
theorem INVn_dir_ne (hash : K → Nat) {s : HTS K V} (hs : INVn hash s) : s.dir ≠ [] := by
  intro h
  have h1 := hs.1
  rw [h] at h1
  have h2 : 0 < 2 ^ s.globalDepth := Nat.two_pow_pos _
  simp at h1
  omega

omit [DecidableEq K] in
theorem INVn_slot (hash : K → Nat) {s : HTS K V} (hs : INVn hash s) (k : K) :
    ∃ bid, s.dir[indexOf hash s.globalDepth k]? = some bid ∧ bid ∈ s.dir ∧
      bid < s.store.length := by
  have hlt : indexOf hash s.globalDepth k < s.dir.length := by
    rw [hs.1]
    exact indexOf_lt hash _ k
  refine ⟨s.dir[indexOf hash s.globalDepth k], List.getElem?_eq_getElem hlt, ?_, ?_⟩
  · exact List.getElem_mem hlt
  · exact hs.2.1 _ (List.getElem_mem hlt)

omit [DecidableEq K] in
theorem INVn_bucket {s : HTS K V} {bid : Nat} (h : bid < s.store.length) :
    ∃ b : HBucket K V, s.store[bid]? = some b :=
  ⟨s.store[bid], List.getElem?_eq_getElem h⟩

theorem htFind_eq_absL (hash : K → Nat) {s : HTS K V} (hs : INVn hash s) (k : K) :
    htFind hash s k = some (absL hash s k) := by
  obtain ⟨bid, hbid, _, hblt⟩ := INVn_slot hash hs k
  obtain ⟨b, hb⟩ := INVn_bucket hblt
  unfold htFind
  rw [hbid]
  dsimp only
  rw [hb]
  dsimp only
  rw [absL_eq hash hbid hb]

theorem bFind_mem {l : List (K × V)} {k : K} {v : V} (h : bFind l k = some v) :
    (k, v) ∈ l := by
  induction l with
  | nil => simp [bFind] at h
  | cons p t ih =>
    rcases p with ⟨k', v'⟩
    by_cases hk : k' = k
    · subst hk
      simp only [bFind, if_pos rfl, if_true, eq_self_iff_true, Option.some.injEq] at h
      subst h
      exact List.mem_cons_self _ _
    · simp only [bFind, if_neg hk] at h
      exact List.mem_cons_of_mem _ (ih h)

theorem updMap_cons (f : K → Option V) (k : K) (v : V) (l : List (K × V)) :
    updMap f ((k, v) :: l) = updMap (fun k' => if k' = k then some v else f k') l := rfl

theorem updMap_congr {f g : K → Option V} {l : List (K × V)} (h : ∀ k0, f k0 = g k0) :
    ∀ k', updMap f l k' = updMap g l k' := by
  induction l generalizing f g with
  | nil => exact h
  | cons p t ih =>
    intro k'
    rcases p with ⟨k0, v0⟩
    rw [updMap_cons, updMap_cons]
    exact ih (fun k1 => by by_cases hq : k1 = k0 <;> simp [hq, h]) k'

/-- What a successful `Bucket::Insert` does to the bucket's scan. -/
theorem insertB_spec {b b' : HBucket K V} {k : K} {v : V} (h : b.insertB k v = some b') :
    bFind b'.items k = some v ∧
    (∀ k0, k0 ≠ k → bFind b'.items k0 = bFind b.items k0) ∧
    (∀ k0 ∈ b'.items.map Prod.fst, k0 ∈ b.items.map Prod.fst ∨ k0 = k) ∧
    ((b.items.map Prod.fst).Nodup → (b'.items.map Prod.fst).Nodup) := by
  unfold HBucket.insertB at h
  rcases ho : bOverwrite b.items k v with _ | l
  · rw [ho] at h
    dsimp only at h
    by_cases hc : b.items.length = b.cap
    · rw [if_pos hc] at h
      exact absurd h (by simp)
    · rw [if_neg hc] at h
      injection h with h
      subst h
      have hnotin : ∀ p ∈ b.items, p.1 ≠ k := bOverwrite_none_iff.mp ho
      have hnone : bFind b.items k = none := bFind_none_iff.mpr hnotin
      refine ⟨bFind_append_self hnone, fun k0 hk0 => bFind_append_ne hk0, ?_, ?_⟩
      · intro k0 hk0
        dsimp only at hk0
        rw [List.map_append] at hk0
        rcases List.mem_append.mp hk0 with h1 | h1
        · exact Or.inl h1
        · simp at h1
          exact Or.inr h1
      · intro hnd
        dsimp only
        rw [List.map_append, List.nodup_append]
        refine ⟨hnd, by simp, ?_⟩
        intro a ha hb2
        simp at hb2
        subst hb2
        obtain ⟨p, hp, hpk⟩ := List.mem_map.mp ha
        exact hnotin p hp hpk
  · rw [ho] at h
    dsimp only at h
    injection h with h
    subst h
    obtain ⟨h1, h2, h3, h4⟩ := bOverwrite_some ho
    refine ⟨h2, h3, ?_, ?_⟩
    · intro k0 hk0
      dsimp only at hk0
      rw [h1] at hk0
      exact Or.inl hk0
    · intro hnd
      dsimp only
      rw [h1]
      exact hnd

/-- Lazy seeding establishes the structural invariant and does not change
the abstract map. -/
theorem seed_spec (hash : K → Nat) {s : HTS K V} (h : INV hash s) :
    INVn hash (seedIfEmpty s) ∧ ∀ k', absL hash (seedIfEmpty s) k' = absL hash s k' := by
  rcases h with ⟨hdir, hg⟩ | hn
  · rw [seedIfEmpty, if_pos (by rw [hdir]; rfl)]
    constructor
    · refine ⟨?_, ?_, ?_, ?_⟩
      · dsimp only
        rw [hg]
        rfl
      · intro bid hbid
        dsimp only at hbid ⊢
        rw [List.mem_singleton] at hbid
        subst hbid
        rw [List.length_append]
        simp
      · intro bid hbid b hb k0 hk0
        dsimp only at hbid hb
        rw [List.mem_singleton] at hbid
        subst hbid
        rw [List.getElem?_concat_length] at hb
        injection hb with hb
        subst hb
        simp at hk0
      · intro bid hbid b hb
        dsimp only at hbid hb
        rw [List.mem_singleton] at hbid
        subst hbid
        rw [List.getElem?_concat_length] at hb
        injection hb with hb
        subst hb
        simp
    · intro k'
      have hidx : indexOf hash s.globalDepth k' = 0 := by
        rw [hg, indexOf, land_mask, pow_zero, Nat.mod_one]
      rw [absL, absL]
      dsimp only
      rw [hidx, hdir]
      simp [List.getElem?_concat_length, bFind]
  · have hne := INVn_dir_ne hash hn
    rw [seedIfEmpty, if_neg (by simp [List.isEmpty_iff, hne])]
    exact ⟨hn, fun k' => rfl⟩

/-- Doubling the directory preserves the invariant and both the slot
lookup and the abstract map. -/
theorem double_spec (hash : K → Nat) {s : HTS K V} (hs : INVn hash s) :
    INVn hash (doubleDir s) ∧
    (∀ k', (doubleDir s).dir[indexOf hash (doubleDir s).globalDepth k']? =
      s.dir[indexOf hash s.globalDepth k']?) ∧
    ∀ k', absL hash (doubleDir s) k' = absL hash s k' := by
  obtain ⟨hlen, hbound, hplace, hnd⟩ := hs
  have hslot : ∀ k', (s.dir ++ s.dir)[indexOf hash (s.globalDepth + 1) k']? =
      s.dir[indexOf hash s.globalDepth k']? := by
    intro k'
    rw [getElem?_append_double hlen (indexOf_lt hash _ k'), indexOf_double]
  refine ⟨⟨?_, ?_, ?_, ?_⟩, ?_, ?_⟩
  · dsimp only [doubleDir]
    rw [List.length_append, hlen, pow_succ]
    omega
  · intro bid hbid
    dsimp only [doubleDir] at hbid ⊢
    rcases List.mem_append.mp hbid with h1 | h1 <;> exact hbound bid h1
  · intro bid hbid b hb k0 hk0
    dsimp only [doubleDir] at hbid hb ⊢
    rw [hslot k0]
    rcases List.mem_append.mp hbid with h1 | h1 <;> exact hplace bid h1 b hb k0 hk0
  · intro bid hbid b hb
    dsimp only [doubleDir] at hbid hb
    rcases List.mem_append.mp hbid with h1 | h1 <;> exact hnd bid h1 b hb
  · intro k'
    dsimp only [doubleDir]
    exact hslot k'
  · intro k'
    rw [absL, absL]
    dsimp only [doubleDir]
    rw [hslot k']

/-- A successful in-bucket insert preserves the invariant and updates
the abstract map at exactly the inserted key. -/
theorem insert1_spec (hash : K → Nat) {s : HTS K V} {k : K} {v : V} {bid : Nat}
    {b b' : HBucket K V}
    (hs : INVn hash s)
    (hbid : s.dir[indexOf hash s.globalDepth k]? = some bid)
    (hb : s.store[bid]? = some b)
    (hins : b.insertB k v = some b') :
    INVn hash { s with store := s.store.set bid b' } ∧
    ∀ k', absL hash { s with store := s.store.set bid b' } k' =
      if k' = k then some v else absL hash s k' := by
  have hmem : bid ∈ s.dir := List.getElem?_mem hbid
  have hblt : bid < s.store.length := hs.2.1 bid hmem
  obtain ⟨hfk, hfne, hkeys, hndp⟩ := insertB_spec hins
  have hset_self : (s.store.set bid b')[bid]? = some b' := by
    simp [List.getElem?_set_self, hblt]
  have hset_ne : ∀ x, x ≠ bid → (s.store.set bid b')[x]? = s.store[x]? := by
    intro x hx
    rw [List.getElem?_set_ne (fun hq => hx hq.symm)]
  obtain ⟨hlen, hbound, hplace, hnd⟩ := hs
  constructor
  · refine ⟨hlen, ?_, ?_, ?_⟩
    · intro bid0 hbid0
      dsimp only at hbid0 ⊢
      rw [List.length_set]
      exact hbound bid0 hbid0
    · intro bid0 hbid0 b0 hb0 k0 hk0
      dsimp only at hbid0 hb0 ⊢
      by_cases he : bid0 = bid
      · subst he
        rw [hset_self] at hb0
        injection hb0 with hb0
        subst hb0
        rcases hkeys k0 hk0 with h1 | h1
        · exact hplace bid0 hbid0 b hb k0 h1
        · subst h1
          exact hbid
      · rw [hset_ne bid0 he] at hb0
        exact hplace bid0 hbid0 b0 hb0 k0 hk0
    · intro bid0 hbid0 b0 hb0
      dsimp only at hbid0 hb0
      by_cases he : bid0 = bid
      · subst he
        rw [hset_self] at hb0
        injection hb0 with hb0
        subst hb0
        exact hndp (hnd bid0 hbid0 b hb)
      · rw [hset_ne bid0 he] at hb0
        exact hnd bid0 hbid0 b0 hb0
  · intro k'
    obtain ⟨bid', hbid', hmem', hblt'⟩ := INVn_slot hash ⟨hlen, hbound, hplace, hnd⟩ k'
    by_cases he : bid' = bid
    · subst he
      have h1 : absL hash { s with store := s.store.set bid' b' } k' = bFind b'.items k' :=
        absL_eq hash hbid' hset_self
      rw [h1]
      by_cases hk : k' = k
      · subst hk
        rw [if_pos rfl]
        exact hfk
      · rw [if_neg hk, hfne k' hk, absL_eq hash hbid' hb]
    · obtain ⟨b0, hb0⟩ := INVn_bucket hblt'
      have h1 : absL hash { s with store := s.store.set bid b' } k' = bFind b0.items k' :=
        absL_eq hash hbid' (by rw [hset_ne bid' he]; exact hb0)
      have hkne : k' ≠ k := by
        intro hq
        subst hq
        rw [hbid] at hbid'
        injection hbid' with h2
        exact he h2.symm
      rw [h1, if_neg hkne, absL_eq hash hbid' hb0]

omit [DecidableEq K] in
theorem splitTail_eq (s1 : HTS K V) (bid : Nat) (b : HBucket K V) (d : Nat) :
    splitTail s1 bid b d =
      { s1 with
          store := (s1.store.set bid { b with depth := d }) ++
            [(⟨[], s1.bucketSize, d⟩ : HBucket K V), ⟨[], s1.bucketSize, d⟩],
          dir := redirect s1.dir bid s1.store.length (s1.store.length + 1) d } := by
  unfold splitTail
  dsimp only
  rw [List.length_set]

/-- The split tail preserves the invariant; keys previously routed to
the split bucket now reach an empty bucket, all other keys are
untouched. -/
theorem splitTail_spec (hash : K → Nat) {s1 : HTS K V} {bid : Nat} {b : HBucket K V}
    (d : Nat) (hs : INVn hash s1) (hmem : bid ∈ s1.dir) (_hb : s1.store[bid]? = some b) :
    INVn hash (splitTail s1 bid b d) ∧
    ∀ k', absL hash (splitTail s1 bid b d) k' =
      if s1.dir[indexOf hash s1.globalDepth k']? = some bid then none
      else absL hash s1 k' := by
  obtain ⟨hlen, hbound, hplace, hnd⟩ := hs
  have hblt : bid < s1.store.length := hbound bid hmem
  rw [splitTail_eq]
  have hold : ∀ x, x < s1.store.length → x ≠ bid →
      ((s1.store.set bid { b with depth := d }) ++
        [(⟨[], s1.bucketSize, d⟩ : HBucket K V), ⟨[], s1.bucketSize, d⟩])[x]? =
      s1.store[x]? := by
    intro x hx hxne
    rw [List.getElem?_append_left (by rw [List.length_set]; exact hx)]
    exact List.getElem?_set_ne fun hq => hxne hq.symm
  have hn1 : ((s1.store.set bid { b with depth := d }) ++
      [(⟨[], s1.bucketSize, d⟩ : HBucket K V), ⟨[], s1.bucketSize, d⟩])[s1.store.length]? =
      some (⟨[], s1.bucketSize, d⟩ : HBucket K V) := by
    rw [List.getElem?_append_right (by simp [List.length_set])]
    rw [List.length_set]
    simp
  have hn2 : ((s1.store.set bid { b with depth := d }) ++
      [(⟨[], s1.bucketSize, d⟩ : HBucket K V),
        ⟨[], s1.bucketSize, d⟩])[s1.store.length + 1]? =
      some (⟨[], s1.bucketSize, d⟩ : HBucket K V) := by
    rw [List.getElem?_append_right (by simp [List.length_set])]
    rw [List.length_set]
    simp
  have hj0 : ∀ k0 : K, indexOf hash s1.globalDepth k0 < s1.dir.length := by
    intro k0
    rw [hlen]
    exact indexOf_lt hash _ k0
  have R1 : ∀ j, j < s1.dir.length →
      (redirect s1.dir bid s1.store.length (s1.store.length + 1) d)[j]? =
        some (if s1.dir.getD j 0 = bid then
                (if Nat.land j (2 ^ (d - 1)) ≠ 0 then s1.store.length
                 else s1.store.length + 1)
              else s1.dir.getD j 0) :=
    fun j hj => redirect_getElem s1.dir bid s1.store.length (s1.store.length + 1) d hj
  constructor
  · refine ⟨?_, ?_, ?_, ?_⟩
    · dsimp only
      rw [redirect_length]
      exact hlen
    · intro x hx
      dsimp only at hx ⊢
      rw [List.length_append, List.length_set]
      simp only [List.length_cons, List.length_nil]
      rcases mem_redirect hx with h | h | ⟨h, hne⟩
      · omega
      · omega
      · have := hbound x h
        omega
    · intro bid0 hbid0 b0 hb0 k0 hk0
      dsimp only at hbid0 hb0 ⊢
      rcases mem_redirect hbid0 with h | h | ⟨hm0, hne0⟩
      · subst h
        rw [hn1] at hb0
        injection hb0 with hb0
        subst hb0
        simp at hk0
      · subst h
        rw [hn2] at hb0
        injection hb0 with hb0
        subst hb0
        simp at hk0
      · have hlt0 : bid0 < s1.store.length := hbound bid0 hm0
        rw [hold bid0 hlt0 hne0] at hb0
        have hpl := hplace bid0 hm0 b0 hb0 k0 hk0
        rw [R1 (indexOf hash s1.globalDepth k0) (hj0 k0), getD_of_getElem? hpl,
          if_neg hne0]
    · intro bid0 hbid0 b0 hb0
      dsimp only at hbid0 hb0
      rcases mem_redirect hbid0 with h | h | ⟨hm0, hne0⟩
      · subst h
        rw [hn1] at hb0
        injection hb0 with hb0
        subst hb0
        simp
      · subst h
        rw [hn2] at hb0
        injection hb0 with hb0
        subst hb0
        simp
      · have hlt0 : bid0 < s1.store.length := hbound bid0 hm0
        rw [hold bid0 hlt0 hne0] at hb0
        exact hnd bid0 hm0 b0 hb0
  · intro k'
    have hjlt := hj0 k'
    have hval : s1.dir[indexOf hash s1.globalDepth k']? =
        some (s1.dir.getD (indexOf hash s1.globalDepth k') 0) := by
      rw [List.getD_eq_getElem _ 0 hjlt]
      exact List.getElem?_eq_getElem hjlt
    by_cases hc : s1.dir.getD (indexOf hash s1.globalDepth k') 0 = bid
    · rw [if_pos (by rw [hval, hc])]
      rw [absL]
      dsimp only
      rw [R1 _ hjlt, if_pos hc, Option.some_bind]
      by_cases hbit : Nat.land (indexOf hash s1.globalDepth k') (2 ^ (d - 1)) ≠ 0
      · rw [if_pos hbit, hn1, Option.some_bind]
        rfl
      · rw [if_neg hbit, hn2, Option.some_bind]
        rfl
    · rw [if_neg (by rw [hval]; intro hq; injection hq with hq; exact hc hq)]
      have hmv : s1.dir.getD (indexOf hash s1.globalDepth k') 0 ∈ s1.dir := by
        rw [List.getD_eq_getElem _ 0 hjlt]
        exact List.getElem_mem hjlt
      have hltv : s1.dir.getD (indexOf hash s1.globalDepth k') 0 < s1.store.length :=
        hbound _ hmv
      simp only [absL]
      rw [R1 _ hjlt, if_neg hc, Option.some_bind, hval, Option.some_bind,
        hold _ hltv hc]

/-- The whole full-bucket step, doubling included. -/
theorem splitStep_spec (hash : K → Nat) {s : HTS K V} {bid : Nat} {b : HBucket K V}
    (hs : INVn hash s) (hmem : bid ∈ s.dir) (hb : s.store[bid]? = some b) :
    INVn hash (splitStep s bid b) ∧
    ∀ k', absL hash (splitStep s bid b) k' =
      if s.dir[indexOf hash s.globalDepth k']? = some bid then none
      else absL hash s k' := by
  unfold splitStep
  dsimp only
  by_cases hd : b.depth = s.globalDepth
  · rw [if_pos hd]
    obtain ⟨hdinv, hdslot, hdabs⟩ := double_spec hash hs
    have hmem1 : bid ∈ (doubleDir s).dir := by
      dsimp only [doubleDir]
      exact List.mem_append.mpr (Or.inl hmem)
    have hb1 : (doubleDir s).store[bid]? = some b := hb
    obtain ⟨hinv4, habs4⟩ := splitTail_spec hash (b.depth + 1) hdinv hmem1 hb1
    refine ⟨hinv4, ?_⟩
    intro k'
    rw [habs4 k']
    rw [hdslot k', hdabs k']
  · rw [if_neg hd]
    exact splitTail_spec hash (b.depth + 1) hs hmem hb

/-- Re-inserting the split bucket's items restores the abstract map. -/
theorem split_restore (hash : K → Nat) {s : HTS K V} {bid : Nat} {b : HBucket K V}
    {s4 : HTS K V}
    (hs : INVn hash s) (hmem : bid ∈ s.dir) (hb : s.store[bid]? = some b)
    (habs : ∀ k', absL hash s4 k' =
      if s.dir[indexOf hash s.globalDepth k']? = some bid then none
      else absL hash s k') :
    ∀ k', updMap (absL hash s4) b.items k' = absL hash s k' := by
  intro k'
  have hndb : (b.items.map Prod.fst).Nodup := hs.2.2.2 bid hmem b hb
  rcases hf : bFind b.items k' with _ | v'
  · have hnotin : ∀ p ∈ b.items, p.1 ≠ k' := bFind_none_iff.mp hf
    rw [updMap_not_mem hnotin, habs k']
    by_cases hc : s.dir[indexOf hash s.globalDepth k']? = some bid
    · rw [if_pos hc, absL_eq hash hc hb, hf]
    · rw [if_neg hc]
  · have hmemp : (k', v') ∈ b.items := bFind_mem hf
    rw [updMap_mem_nodup hndb hmemp]
    have hc : s.dir[indexOf hash s.globalDepth k']? = some bid :=
      hs.2.2.1 bid hmem b hb k' (List.mem_map.mpr ⟨(k', v'), hmemp, rfl⟩)
    rw [absL_eq hash hc hb, hf]

/-- The worklist loop preserves the invariant and applies the pending
pairs, in order, to the abstract map. -/
theorem htInsertAux_spec (hash : K → Nat) :
    ∀ (fuel : Nat) (pending : List (K × V)) (s s' : HTS K V),
      INV hash s → htInsertAux hash fuel pending s = some s' →
      (INVn hash s' ∨ (s' = s ∧ pending = [])) ∧
      ∀ k', absL hash s' k' = updMap (absL hash s) pending k' := by
  intro fuel
  induction fuel with
  | zero =>
    intro pending s s' _ h
    simp [htInsertAux] at h
  | succ fuel ih =>
    intro pending s s' hinv h
    rcases pending with _ | ⟨⟨k, v⟩, pending⟩
    · simp only [htInsertAux, Option.some.injEq] at h
      subst h
      exact ⟨Or.inr ⟨rfl, rfl⟩, fun k' => rfl⟩
    · obtain ⟨hseed, habs0⟩ := seed_spec hash hinv
      simp only [htInsertAux] at h
      obtain ⟨bid, hbid, hmemb, hbltb⟩ := INVn_slot hash hseed k
      rw [hbid] at h
      dsimp only at h
      obtain ⟨b, hb⟩ := INVn_bucket hbltb
      rw [hb] at h
      dsimp only at h
      rcases hins : b.insertB k v with _ | b'
      · rw [hins] at h
        dsimp only at h
        obtain ⟨hinv4, habs4⟩ := splitStep_spec hash hseed hmemb hb
        obtain ⟨hres, habsres⟩ := ih _ _ _ (Or.inr hinv4) h
        constructor
        · rcases hres with h1 | ⟨h1, _⟩
          · exact Or.inl h1
          · subst h1
            exact Or.inl hinv4
        · intro k'
          rw [habsres k', updMap_append]
          exact updMap_congr
            (fun k0 => (split_restore hash hseed hmemb hb habs4 k0).trans (habs0 k0)) k'
      · rw [hins] at h
        dsimp only at h
        obtain ⟨hinv1, habs1⟩ := insert1_spec hash hseed hbid hb hins
        obtain ⟨hres, habsres⟩ := ih _ _ _ (Or.inr hinv1) h
        constructor
        · rcases hres with h1 | ⟨h1, _⟩
          · exact Or.inl h1
          · subst h1
            exact Or.inl hinv1
        · intro k'
          rw [habsres k', updMap_cons]
          refine updMap_congr (fun k0 => ?_) k'
          rw [habs1 k0]
          by_cases hq : k0 = k
          · rw [if_pos hq, if_pos hq]
          · rw [if_neg hq, if_neg hq, habs0 k0]

/-- `Remove` preserves the invariant and clears the abstract map at
exactly the removed key. -/
theorem htRemove_spec (hash : K → Nat) {s : HTS K V} {r : Bool} {s' : HTS K V} {k : K}
    (hs : INV hash s) (h : htRemove hash s k = some (r, s')) :
    (INVn hash s' ∨ (s' = s ∧ s.dir = [])) ∧
    ∀ k', absL hash s' k' = if k' = k then none else absL hash s k' := by
  unfold htRemove at h
  by_cases hd : s.dir.isEmpty
  · rw [if_pos hd] at h
    injection h with h
    injection h with h1 h2
    subst h2
    have hdir : s.dir = [] := List.isEmpty_iff.mp hd
    refine ⟨Or.inr ⟨rfl, hdir⟩, ?_⟩
    intro k'
    by_cases hq : k' = k
    · rw [if_pos hq, absL, hdir]
      simp
    · rw [if_neg hq]
  · rw [if_neg hd] at h
    have hn : INVn hash s := by
      rcases hs with ⟨hdir, _⟩ | hn
      · rw [List.isEmpty_iff] at hd
        exact absurd hdir hd
      · exact hn
    obtain ⟨bid, hbid, hmemb, hbltb⟩ := INVn_slot hash hn k
    rw [hbid] at h
    dsimp only at h
    obtain ⟨b, hb⟩ := INVn_bucket hbltb
    rw [hb] at h
    dsimp only at h
    injection h with h
    injection h with h1 h2
    subst h2
    obtain ⟨hlen, hbound, hplace, hnd⟩ := hn
    have hndb : (b.items.map Prod.fst).Nodup := hnd bid hmemb b hb
    have hkeysub : ((bRemoveList b.items k).2.map Prod.fst).Sublist (b.items.map Prod.fst) :=
      (bRemoveList_sublist b.items k).map Prod.fst
    have hset_self : (s.store.set bid { b with items := (bRemoveList b.items k).2 })[bid]? =
        some { b with items := (bRemoveList b.items k).2 } := by
      simp [List.getElem?_set_self, hbltb]
    have hset_ne : ∀ x, x ≠ bid →
        (s.store.set bid { b with items := (bRemoveList b.items k).2 })[x]? =
        s.store[x]? := by
      intro x hx
      rw [List.getElem?_set_ne fun hq => hx hq.symm]
    constructor
    · refine Or.inl ⟨hlen, ?_, ?_, ?_⟩
      · intro bid0 hbid0
        dsimp only at hbid0 ⊢
        rw [List.length_set]
        exact hbound bid0 hbid0
      · intro bid0 hbid0 b0 hb0 k0 hk0
        dsimp only at hbid0 hb0 ⊢
        by_cases he : bid0 = bid
        · subst he
          rw [hset_self] at hb0
          injection hb0 with hb0
          subst hb0
          exact hplace bid0 hbid0 b hb k0 (hkeysub.mem hk0)
        · rw [hset_ne bid0 he] at hb0
          exact hplace bid0 hbid0 b0 hb0 k0 hk0
      · intro bid0 hbid0 b0 hb0
        dsimp only at hbid0 hb0
        by_cases he : bid0 = bid
        · subst he
          rw [hset_self] at hb0
          injection hb0 with hb0
          subst hb0
          exact hndb.sublist hkeysub
        · rw [hset_ne bid0 he] at hb0
          exact hnd bid0 hbid0 b0 hb0
    · intro k'
      obtain ⟨bid', hbid', hmem', hblt'⟩ := INVn_slot hash ⟨hlen, hbound, hplace, hnd⟩ k'
      by_cases he : bid' = bid
      · subst he
        have h1 : absL hash
            { s with store := s.store.set bid' { b with items := (bRemoveList b.items k).2 } }
            k' = bFind ({ b with items := (bRemoveList b.items k).2 } : HBucket K V).items k' :=
          absL_eq hash hbid' hset_self
        rw [h1]
        dsimp only
        by_cases hq : k' = k
        · subst hq
          rw [if_pos rfl]
          exact bRemoveList_find_self hndb
        · rw [if_neg hq, bRemoveList_find_ne hq, absL_eq hash hbid' hb]
      · obtain ⟨b0, hb0⟩ := INVn_bucket hblt'
        have h1 : absL hash
            { s with store := s.store.set bid { b with items := (bRemoveList b.items k).2 } }
            k' = bFind b0.items k' :=
          absL_eq hash hbid' (by rw [hset_ne bid' he]; exact hb0)
        have hkne : k' ≠ k := by
          intro hq
          subst hq
          rw [hbid] at hbid'
          injection hbid' with h2
          exact he h2.symm
        rw [h1, if_neg hkne, absL_eq hash hbid' hb0]

/-! ### Operation sequences -/

/-- A client-visible table operation. -/
inductive HOp (K V : Type) where
  | ins (k : K) (v : V)
  | del (k : K)
deriving DecidableEq, Repr

/-- One operation against the table. -/
def runStep (hash : K → Nat) (fuel : Nat) (s : HTS K V) : HOp K V → Option (HTS K V)
  | .ins k v => htInsert hash fuel s k v
  | .del k => (htRemove hash s k).map Prod.snd

/-- A whole operation sequence from the freshly constructed table. -/
def runHT (hash : K → Nat) (fuel bs : Nat) (ops : List (HOp K V)) : Option (HTS K V) :=
  ops.foldlM (runStep hash fuel) (htInit bs)

/-- The spec-side effect of one operation on an abstract map — this
follows the claim's words, not the code. -/
def specUpd (f : K → Option V) : HOp K V → K → Option V
  | .ins k0 v0 => fun k => if k = k0 then some v0 else f k
  | .del k0 => fun k => if k = k0 then none else f k

/-- The claim's specification of `Find` after a sequence of operations:
the value of the most recent insert of the key not followed by a remove
of it, nothing otherwise. -/
def specFindOps (ops : List (HOp K V)) : K → Option V :=
  ops.foldl specUpd fun _ => none

theorem specFold_congr {f g : K → Option V} (h : ∀ k0, f k0 = g k0) :
    ∀ (ops : List (HOp K V)) (k' : K),
      ops.foldl specUpd f k' = ops.foldl specUpd g k' := by
  intro ops
  induction ops generalizing f g with
  | nil => exact h
  | cons op t ih =>
    intro k'
    rw [List.foldl_cons, List.foldl_cons]
    refine ih (fun k0 => ?_) k'
    cases op with
    | ins k1 v1 => by_cases hq : k0 = k1 <;> simp [specUpd, hq, h]
    | del k1 => by_cases hq : k0 = k1 <;> simp [specUpd, hq, h]

/-- Folding any operation list keeps the invariant and tracks the
spec-side abstract map; any executed insert establishes `INVn`. -/
theorem foldHT_spec (hash : K → Nat) (fuel : Nat) :
    ∀ (ops : List (HOp K V)) (st s : HTS K V), INV hash st →
      List.foldlM (runStep hash fuel) st ops = some s →
      INV hash s ∧
      (∀ k', absL hash s k' = ops.foldl specUpd (absL hash st) k') ∧
      (((∃ k0 v0, HOp.ins k0 v0 ∈ ops) ∨ INVn hash st) → INVn hash s) := by
  intro ops
  induction ops with
  | nil =>
    intro st s hst h
    simp only [List.foldlM_nil, Option.pure_def, Option.some.injEq] at h
    subst h
    refine ⟨hst, fun k' => rfl, ?_⟩
    intro hc
    rcases hc with ⟨k0, v0, hk0⟩ | hc
    · simp at hk0
    · exact hc
  | cons op t ih =>
    intro st s hst h
    rw [List.foldlM_cons] at h
    rcases hstep : runStep hash fuel st op with _ | s1
    · rw [hstep] at h
      simp at h
    · rw [hstep] at h
      simp only [Option.bind_eq_bind, Option.some_bind] at h
      cases op with
      | ins k v =>
        rw [runStep, htInsert] at hstep
        obtain ⟨hres, habs⟩ := htInsertAux_spec hash fuel _ st s1 hst hstep
        have hinvn1 : INVn hash s1 := by
          rcases hres with h2 | ⟨_, h2⟩
          · exact h2
          · simp at h2
        obtain ⟨hinv2, habs2, hn2⟩ := ih s1 s (Or.inr hinvn1) h
        refine ⟨hinv2, ?_, fun _ => hn2 (Or.inr hinvn1)⟩
        intro k'
        rw [habs2 k', List.foldl_cons]
        exact specFold_congr (fun k0 => habs k0) t k'
      | del k =>
        rw [runStep] at hstep
        rcases hrem : htRemove hash st k with _ | rs
        · rw [hrem] at hstep
          simp at hstep
        · rw [hrem] at hstep
          rcases rs with ⟨r, s2⟩
          simp only [Option.map_some', Option.some.injEq] at hstep
          subst hstep
          obtain ⟨hres, habs⟩ := htRemove_spec hash hst hrem
          have hinv1 : INV hash s2 := by
            rcases hres with h2 | ⟨h2, _⟩
            · exact Or.inr h2
            · rw [h2]
              exact hst
          obtain ⟨hinv2, habs2, hn2⟩ := ih s2 s hinv1 h
          refine ⟨hinv2, ?_, ?_⟩
          · intro k'
            rw [habs2 k', List.foldl_cons]
            exact specFold_congr (fun k0 => habs k0) t k'
          · intro hc
            rcases hc with ⟨k0, v0, hk0⟩ | hc
            · rcases List.mem_cons.mp hk0 with h3 | h3
              · exact absurd h3 (by simp)
              · exact hn2 (Or.inl ⟨k0, v0, h3⟩)
            · have hinvn1 : INVn hash s2 := by
                rcases hres with h2 | ⟨h2, h3⟩
                · exact h2
                · exact absurd h3 (INVn_dir_ne hash hc)
              exact hn2 (Or.inr hinvn1)

/-- Claim C4 (amended): for every terminating sequence of inserts and
removes containing at least one insert — splits and directory doubling
included — `Find(k)` completes and returns exactly the value of the most
recent `insert(k, ·)` not followed by a `remove(k)`, and no value if
there is no such insert. -/
theorem extendible_hash_find_last_insert (hash : K → Nat) (fuel bs : Nat)
    (ops : List (HOp K V)) (s : HTS K V) (k : K)
    (hrun : runHT hash fuel bs ops = some s)
    (hins : ∃ k0 v0, HOp.ins k0 v0 ∈ ops) :
    htFind hash s k = some (specFindOps ops k) := by
  have hinit : INV hash (htInit bs : HTS K V) := Or.inl ⟨rfl, rfl⟩
  obtain ⟨_, habs, hinvn⟩ := foldHT_spec hash fuel ops (htInit bs) s hinit hrun
  have hn : INVn hash s := hinvn (Or.inl hins)
  rw [htFind_eq_absL hash hn k, habs k]
  simp only [specFindOps]
  exact congrArg some (specFold_congr (fun k0 => by simp [absL, htInit]) ops k)

/-- Claim C4 counterexample: for the empty (insert-free) sequence the
claim requires `find(k)` to return nothing, but on the resulting fresh
table `Find` reads `dir_[0]` of an empty directory — out of bounds —
instead of completing with no value. -/
theorem claim_c4_counterexample :
    runHT (fun x => x) 16 4 ([] : List (HOp Nat Nat)) = some (htInit 4) ∧
    specFindOps ([] : List (HOp Nat Nat)) 0 = none ∧
    htFind (fun x => x) (htInit 4 : HTS Nat Nat) 0 ≠
      some (specFindOps ([] : List (HOp Nat Nat)) 0) := by
  refine ⟨rfl, rfl, fun h => ?_⟩
  simp [htFind, htInit] at h

theorem extendible_hash_find_last_insert_witness :
    runHT (fun x => x) 4 2 [HOp.ins 1 10] =
      some (⟨0, 2, 1, [⟨[(1, 10)], 2, 0⟩], [0]⟩ : HTS Nat Nat) ∧
    (∃ k0 v0, HOp.ins k0 v0 ∈ [HOp.ins (1 : Nat) (10 : Nat)]) ∧
    htFind (fun x => x) (⟨0, 2, 1, [⟨[(1, 10)], 2, 0⟩], [0]⟩ : HTS Nat Nat) 1 =
      some (specFindOps [HOp.ins 1 10] 1) :=
  ⟨rfl, ⟨1, 10, List.mem_singleton.mpr rfl⟩,
    extendible_hash_find_last_insert (fun x => x) 4 2 [HOp.ins 1 10] _ 1 rfl
      ⟨1, 10, List.mem_singleton.mpr rfl⟩⟩

end EHT

namespace Pool

/-! ## `BufferPoolManagerInstance`
(`src/buffer/buffer_pool_manager_instance.cpp`)

The pool composes the extendible hash table (`page_table_`), the LRU-K
replacer (`replacer_`), the frame array `pages_`, the free list and the
disk.  `page_id_t` is `Int` with `INVALID_PAGE_ID = -1`; a page's bytes
are abstracted to one `Nat` (`ResetMemory` writes 0).  The outer
`Option` is undefined behaviour or an assertion failure in a
subcomponent; the C++ `nullptr` / `bool` results live inside it. -/

/-- One `Page` of the frame array. -/
structure PoolPage where
  pageId : Int
  pinCount : Nat
  dirty : Bool
  data : Nat
deriving DecidableEq, Repr

/-- The manager's state. -/
structure PoolState where
  poolSize : Nat
  pages : List PoolPage
  freeList : List Nat
  pageTable : EHT.HTS Int Nat
  replacer : LRUK.RState
  nextPageId : Int
  disk : List (Int × Nat)
deriving DecidableEq, Repr

/-- The constructor: default-initialised pages, every frame in the free
list, fresh table (directory bucket size `bs`) and replacer. -/
def initPool (poolSize k bs : Nat) : PoolState :=
  ⟨poolSize, List.replicate poolSize ⟨-1, 0, false, 0⟩, List.range poolSize,
   EHT.htInit bs, LRUK.initR poolSize k, 0, []⟩

/-- `disk_manager_->ReadPage`: unwritten pages read as zeroes. -/
def diskRead (d : List (Int × Nat)) (p : Int) : Nat := (Util.assocFind d p).getD 0

/-- The frame-allocation preamble shared by `NewPgImp` and `FetchPgImp`:
pop the free list, else ask the replacer; `none` in the first component
is the C++ `return nullptr` path. -/
def allocFrame (s : PoolState) : Option Nat × PoolState :=
  match s.freeList with
  | f :: rest => (some f, { s with freeList := rest })
  | [] =>
    match LRUK.evict s.replacer with
    | (some f, rep) => (some f, { s with replacer := rep })
    | (none, rep) => (none, { s with replacer := rep })

/-- `NewPgImp`: allocate a frame, flush it if dirty, drop its old table
entry, allocate a page id, register and reset the frame, record the
access and pin it in the replacer. -/
def newPg (hpid : Int → Nat) (fuel : Nat) (s : PoolState) :
    Option (Option (Int × Nat) × PoolState) :=
  match allocFrame s with
  | (none, s1) => some (none, s1)
  | (some f, s1) =>
    match s1.pages[f]? with
    | none => none
    | some pg =>
      let d1 := if pg.dirty then Util.assocSet s1.disk pg.pageId pg.data else s1.disk
      match EHT.htRemove hpid s1.pageTable pg.pageId with
      | none => none
      | some (_, pt1) =>
        let pid := s1.nextPageId
        match EHT.htInsert hpid fuel pt1 pid f with
        | none => none
        | some pt2 =>
          match LRUK.recordAccess f s1.replacer with
          | none => none
          | some rep1 =>
            match LRUK.setEvictable f false rep1 with
            | none => none
            | some rep2 =>
              some (some (pid, f),
                { s1 with pages := s1.pages.set f ⟨pid, 1, false, 0⟩,
                          pageTable := pt2, replacer := rep2,
                          nextPageId := s1.nextPageId + 1, disk := d1 })

/-- `FetchPgImp`.  On a page-table hit the source only does
`pin_count_++` and returns — no `RecordAccess`, no `SetEvictable(false)`
(kept faithfully).  On a miss it behaves like `NewPgImp` but keeps the
requested page id and reads the page from disk. -/
def fetchPg (hpid : Int → Nat) (fuel : Nat) (pid : Int) (s : PoolState) :
    Option (Option Nat × PoolState) :=
  match EHT.htFind hpid s.pageTable pid with
  | none => none
  | some (some f) =>
    match s.pages[f]? with
    | none => none
    | some pg =>
      some (some f,
        { s with pages := s.pages.set f { pg with pinCount := pg.pinCount + 1 } })
  | some none =>
    match allocFrame s with
    | (none, s1) => some (none, s1)
    | (some f, s1) =>
      match s1.pages[f]? with
      | none => none
      | some pg =>
        let d1 := if pg.dirty then Util.assocSet s1.disk pg.pageId pg.data else s1.disk
        match EHT.htRemove hpid s1.pageTable pg.pageId with
        | none => none
        | some (_, pt1) =>
          match EHT.htInsert hpid fuel pt1 pid f with
          | none => none
          | some pt2 =>
            match LRUK.recordAccess f s1.replacer with
            | none => none
            | some rep1 =>
              match LRUK.setEvictable f false rep1 with
              | none => none
              | some rep2 =>
                some (some f,
                  { s1 with pages := s1.pages.set f ⟨pid, 1, false, diskRead d1 pid⟩,
                            pageTable := pt2, replacer := rep2, disk := d1 })

/-- `UnpinPgImp`: false when the page is not resident or not pinned;
otherwise decrement the pin count, hand the frame to the replacer when
it reaches zero, and set (never clear) the dirty bit. -/
def unpinPg (hpid : Int → Nat) (pid : Int) (d : Bool) (s : PoolState) :
    Option (Bool × PoolState) :=
  match EHT.htFind hpid s.pageTable pid with
  | none => none
  | some none => some (false, s)
  | some (some f) =>
    match s.pages[f]? with
    | none => none
    | some pg =>
      if pg.pinCount = 0 then some (false, s)
      else
        match (if pg.pinCount - 1 = 0 then LRUK.setEvictable f true s.replacer
               else some s.replacer) with
        | none => none
        | some rep =>
          let pg2 : PoolPage :=
            { pg with pinCount := pg.pinCount - 1,
                      dirty := if d then true else pg.dirty }
          some (true, { s with pages := s.pages.set f pg2, replacer := rep })

/-- `FlushPgImp`: guarded against `INVALID_PAGE_ID` before the table
lookup; writes the frame and clears its dirty bit. -/
def flushPg (hpid : Int → Nat) (pid : Int) (s : PoolState) :
    Option (Bool × PoolState) :=
  if pid = -1 then some (false, s)
  else
    match EHT.htFind hpid s.pageTable pid with
    | none => none
    | some none => some (false, s)
    | some (some f) =>
      match s.pages[f]? with
      | none => none
      | some pg =>
        if pg.pageId = -1 then some (false, s)
        else
          some (true,
            { s with disk := Util.assocSet s.disk pid pg.data,
                     pages := s.pages.set f { pg with dirty := false } })

/-- `DeletePgImp`: true when the page is not resident; false when
pinned; otherwise flush if dirty, drop the table entry, remove the
frame from the replacer, free it and reset the page. -/
def deletePg (hpid : Int → Nat) (pid : Int) (s : PoolState) :
    Option (Bool × PoolState) :=
  match EHT.htFind hpid s.pageTable pid with
  | none => none
  | some none => some (true, s)
  | some (some f) =>
    match s.pages[f]? with
    | none => none
    | some pg =>
      if 0 < pg.pinCount then some (false, s)
      else
        let d1 := if pg.dirty then Util.assocSet s.disk pg.pageId pg.data else s.disk
        match EHT.htRemove hpid s.pageTable pid with
        | none => none
        | some (_, pt1) =>
          match LRUK.removeR f s.replacer with
          | none => none
          | some rep1 =>
            some (true,
              { s with pageTable := pt1, replacer := rep1,
                       freeList := s.freeList ++ [f],
                       pages := s.pages.set f ⟨-1, 0, false, 0⟩, disk := d1 })

/-- `page_id_t` values are hashed by `std::hash` — the identity cast to
`size_t`; non-negative ids (all the allocator produces) map to
themselves. -/
def pid2nat : Int → Nat := fun p => p.toNat

/-! ### Claim C1: a pinned frame can be evicted -/

/-- The pool state reached by `new_page` → `unpin_page(0, false)` →
`fetch_page(0)` on a one-frame pool (K = 2): page 0 is pinned again, but
its frame still sits in the replacer's `history_list_` as evictable. -/
def c1S3 : PoolState :=
  ⟨1, [⟨0, 1, false, 0⟩], [], ⟨0, 4, 1, [⟨[(0, 0)], 4, 0⟩], [0]⟩,
   ⟨2, 1, 1, 1, [⟨1, 0, 1, false, false⟩], [], [],
    [(0, ⟨1, 0, 1, false, false⟩)]⟩, 1, []⟩

/-- Claim C1 is false in the code: the `FetchPgImp` hit path only does
`pin_count_++` — it never calls `RecordAccess`/`SetEvictable(false)` —
so after new_page, unpin and a fetch hit, frame 0 has pin_count 1 yet is
the replacer's victim: `Evict` returns it, and the next `new_page`
repurposes the pinned frame for page 1. -/
theorem claim_c1_code_bug :
    (do
      let (_, s1) ← newPg pid2nat 8 (initPool 1 2 4)
      let (_, s2) ← unpinPg pid2nat 0 false s1
      let (_, s3) ← fetchPg pid2nat 8 0 s2
      pure s3) = some c1S3 ∧
    (c1S3.pages[0]?).map PoolPage.pinCount = some 1 ∧
    (LRUK.evict c1S3.replacer).1 = some 0 ∧
    (newPg pid2nat 8 c1S3).map (fun r => r.1) = some (some (1, 0)) :=
  ⟨rfl, rfl, rfl, rfl⟩

/-! ### Claim C7: the effect of unpinning a pinned resident page -/

/-- Claim C7: unpinning a resident page with positive pin count
succeeds, decrements exactly that frame's pin count by one, sets the
dirty bit when `is_dirty` is true and leaves it unchanged when false
(dirty is sticky), keeps the frame's page id and bytes, and leaves every
other frame and every other pool component (page table, free list,
disk) unchanged. -/
theorem unpin_page_effect (hpid : Int → Nat) {s : PoolState} {p : Int} {f : Nat}
    {pg : PoolPage} {d : Bool} {r : Bool} {s' : PoolState}
    (hfind : EHT.htFind hpid s.pageTable p = some (some f))
    (hpg : s.pages[f]? = some pg)
    (hpin : 0 < pg.pinCount)
    (hrun : unpinPg hpid p d s = some (r, s')) :
    r = true ∧
    s'.pages[f]? =
      some { pg with pinCount := pg.pinCount - 1, dirty := if d then true else pg.dirty } ∧
    (∀ f', f' ≠ f → s'.pages[f']? = s.pages[f']?) ∧
    s'.pageTable = s.pageTable ∧ s'.freeList = s.freeList ∧
    s'.disk = s.disk ∧ s'.poolSize = s.poolSize ∧ s'.nextPageId = s.nextPageId := by
  have hflt : f < s.pages.length := by
    by_contra hc
    rw [List.getElem?_eq_none (le_of_not_lt hc)] at hpg
    exact Option.noConfusion hpg
  unfold unpinPg at hrun
  rw [hfind] at hrun
  dsimp only at hrun
  rw [hpg] at hrun
  dsimp only at hrun
  rw [if_neg (by omega)] at hrun
  rcases hrep : (if pg.pinCount - 1 = 0 then LRUK.setEvictable f true s.replacer
                 else some s.replacer) with _ | rep
  · rw [hrep] at hrun
    exact absurd hrun (by simp)
  · rw [hrep] at hrun
    dsimp only at hrun
    injection hrun with hrun
    injection hrun with h1 h2
    subst h2
    refine ⟨h1.symm, ?_, ?_, rfl, rfl, rfl, rfl, rfl⟩
    · dsimp only
      simp [List.getElem?_set_self, hflt]
    · intro f' hf'
      dsimp only
      rw [List.getElem?_set_ne fun hq => hf' hq.symm]

/-- A one-frame pool with page 5 resident in frame 0, pinned twice. -/
def c7S : PoolState :=
  ⟨1, [⟨5, 2, false, 7⟩], [], ⟨0, 4, 1, [⟨[(5, 0)], 4, 0⟩], [0]⟩,
   LRUK.initR 1 2, 6, []⟩

/-- `c7S` after `unpin_page(5, true)`. -/
def c7S2 : PoolState := { c7S with pages := [⟨5, 1, true, 7⟩] }

theorem unpin_page_effect_witness :
    0 < (⟨5, 2, false, 7⟩ : PoolPage).pinCount ∧
    (true = true ∧
     c7S2.pages[0]? = some ⟨5, 1, true, 7⟩ ∧
     (∀ f', f' ≠ 0 → c7S2.pages[f']? = c7S.pages[f']?) ∧
     c7S2.pageTable = c7S.pageTable ∧ c7S2.freeList = c7S.freeList ∧
     c7S2.disk = c7S.disk ∧ c7S2.poolSize = c7S.poolSize ∧
     c7S2.nextPageId = c7S.nextPageId) :=
  ⟨by decide,
   unpin_page_effect pid2nat
     (show EHT.htFind pid2nat c7S.pageTable 5 = some (some 0) from rfl)
     (show c7S.pages[0]? = some ⟨5, 2, false, 7⟩ from rfl)
     (by decide)
     (show unpinPg pid2nat 5 true c7S = some (true, c7S2) from rfl)⟩

/-! ### Claim C8: operations on INVALID_PAGE_ID -/

/-- The pool state after one successful `new_page` on a one-frame pool. -/
def c8S : PoolState :=
  ⟨1, [⟨0, 1, false, 0⟩], [], ⟨0, 4, 1, [⟨[(0, 0)], 4, 0⟩], [0]⟩,
   ⟨2, 1, 1, 0, [], [], [⟨1, 0, 1, false, false⟩],
    [(0, ⟨1, 0, 1, false, false⟩)]⟩, 1, []⟩

/-- Claim C8 counterexample: on the (reachable) state after one
`new_page`, `delete_page(INVALID_PAGE_ID)` returns **true** — the
source's "not resident" early return — where the claim requires false. -/
theorem claim_c8_counterexample :
    (newPg pid2nat 8 (initPool 1 2 4)).map Prod.snd = some c8S ∧
    deletePg pid2nat (-1) c8S = some (true, c8S) ∧
    (true : Bool) ≠ false :=
  ⟨rfl, rfl, by decide⟩

/-- Claim C8 (amended): on every pool state whose page table lookup of
INVALID_PAGE_ID completes without finding it (true of any state after a
successful new_page), `unpin_page(INVALID, d)` and `flush_page(INVALID)`
return false and `delete_page(INVALID)` returns **true**, and all three
leave the pool state unchanged. -/
theorem invalid_page_id_ops (hpid : Int → Nat) {s : PoolState} (d : Bool)
    (hfind : EHT.htFind hpid s.pageTable (-1) = some none) :
    unpinPg hpid (-1) d s = some (false, s) ∧
    flushPg hpid (-1) s = some (false, s) ∧
    deletePg hpid (-1) s = some (true, s) := by
  refine ⟨?_, ?_, ?_⟩
  · unfold unpinPg
    rw [hfind]
  · unfold flushPg
    rw [if_pos rfl]
  · unfold deletePg
    rw [hfind]

theorem invalid_page_id_ops_witness :
    EHT.htFind pid2nat c8S.pageTable (-1) = some none ∧
    (unpinPg pid2nat (-1) false c8S = some (false, c8S) ∧
     flushPg pid2nat (-1) c8S = some (false, c8S) ∧
     deletePg pid2nat (-1) c8S = some (true, c8S)) :=
  ⟨rfl, invalid_page_id_ops pid2nat false
    (show EHT.htFind pid2nat c8S.pageTable (-1) = some none from rfl)⟩

end Pool

end BusTub

